import Mathlib

/-!
Verification development for the qgis-mcp repository.

The repository implements a JSON-over-TCP remote-control bridge between an
MCP client (`src/qgis_mcp/connection.py`, `client.py`) and a server embedded
in QGIS (`src/qgis_mcp/server.py` and its logging variant
`src/qgis_mcp/plugin/server.py`).  This file shallowly embeds:

* the wire format: Python `json.dumps` (with its default `ensure_ascii=True`,
  whose output is pure ASCII, and default separators `", "` / `": "`) and
  `json.loads` restricted to the JSON fragment the bridge exchanges
  (numbers are modelled as integers; float literals are out of model and
  the parser rejects them);
* the server's per-connection receive loop and command dispatcher
  (`QGISMCPServer._handle_client`, `QGISMCPServer.execute_command`) together
  with the nine registered handlers, over an abstract QGIS host state;
* the client connection manager (`QGISConnection.connect/disconnect/
  send_command`).

Bytes vs characters: `json.dumps(...).encode("utf-8")` is ASCII, so every
byte of the wire encoding is one character; buffers and chunks are therefore
modelled as `List Char` (theorem `encodeJson_ascii` justifies this).
-/

set_option autoImplicit false

namespace QgisMcp

/-- Character with code point `n` (Python `chr`). -/
def chr (n : Nat) : Char := Char.ofNat n

/-- The single-quote character, code point 39. -/
def squote : Char := chr 39

/-- The left curly brace character, code point 123. -/
def lbrace : Char := chr 123

/-- The right curly brace character, code point 125. -/
def rbrace : Char := chr 125

/-- Shorthand turning a string literal into the `List Char` representation
used throughout this development. -/
def strL (s : String) : List Char := s.toList

/-- JSON insignificant whitespace characters (space, tab, newline, carriage
return), as accepted between tokens by Python `json.loads`. -/
def isWsChar (c : Char) : Bool :=
  c = ' ' || c = chr 9 || c = chr 10 || c = chr 13

/-- Decimal digit test on characters. -/
def isDigitChar (c : Char) : Bool :=
  48 ≤ c.toNat && c.toNat ≤ 57

/-- The decimal digit character for `n < 10`. -/
def digitChar (n : Nat) : Char := chr (48 + n)

/-- Lowercase hexadecimal digit character for `n < 16`, as produced by
Python `"%04x"` formatting in `json.dumps(ensure_ascii=True)`. -/
def hexChar (n : Nat) : Char :=
  if n < 10 then chr (48 + n) else chr (87 + n)

/-- Value of a hexadecimal digit character (either case), as accepted by the
`\uXXXX` escape scanner of Python `json.loads`. -/
def hexDigitVal (c : Char) : Option Nat :=
  if 48 ≤ c.toNat ∧ c.toNat ≤ 57 then some (c.toNat - 48)
  else if 97 ≤ c.toNat ∧ c.toNat ≤ 102 then some (c.toNat - 87)
  else if 65 ≤ c.toNat ∧ c.toNat ≤ 70 then some (c.toNat - 55)
  else none

/-- Four lowercase hex digits for `n < 0x10000` (the `%04x` format used by
`json.dumps` for `\uXXXX` escapes). -/
def toHex4 (n : Nat) : List Char :=
  [hexChar (n / 4096), hexChar (n / 256 % 16), hexChar (n / 16 % 16), hexChar (n % 16)]

/-- Decimal digits of a natural number, most significant first (Python
`str(int)` for non-negative values). -/
def natDigits (n : Nat) : List Char :=
  if _h : n < 10 then [digitChar n]
  else natDigits (n / 10) ++ [digitChar (n % 10)]
  decreasing_by exact Nat.div_lt_self (by omega) (by omega)

/-- Decimal rendering of an integer (Python `str(int)`, which is what
`json.dumps` emits for `int` values). -/
def encodeInt (n : Int) : List Char :=
  if n < 0 then '-' :: natDigits n.natAbs else natDigits n.toNat

mutual
/-- The JSON values exchanged on the wire.  Numbers are modelled as
integers (the bridge's commands and responses never require float
literals; floats are out of model).  Objects keep their key/value pairs in
insertion order, exactly as Python dicts do when built and serialized. -/
inductive Json where
  | null : Json
  | bool (b : Bool) : Json
  | num (n : Int) : Json
  | str (s : List Char) : Json
  | arr (elems : JsonList) : Json
  | obj (members : JsonMembers) : Json

/-- Sequences of JSON values (array elements). -/
inductive JsonList where
  | nil : JsonList
  | cons (hd : Json) (tl : JsonList) : JsonList

/-- Sequences of key/value pairs (object members, in insertion order). -/
inductive JsonMembers where
  | nil : JsonMembers
  | cons (key : List Char) (val : Json) (tl : JsonMembers) : JsonMembers
end

/-- Build a `JsonList` from a Lean list. -/
def jarr : List Json → JsonList
  | [] => .nil
  | v :: t => .cons v (jarr t)

/-- Build `JsonMembers` from a Lean association list. -/
def jmem : List (List Char × Json) → JsonMembers
  | [] => .nil
  | (k, v) :: t => .cons k v (jmem t)

/-- Python `dict.get` on object members (keys produced by the bridge are
unique, so first-match lookup agrees with dict semantics). -/
def mlookup : JsonMembers → List Char → Option Json
  | .nil, _ => none
  | .cons k v t, key => if k = key then some v else mlookup t key

/-- `json.dumps(ensure_ascii=True)` escaping of one character inside a JSON
string: `"` and `\` get two-character escapes, the common control characters
get their short escapes, printable ASCII is copied verbatim, and everything
else becomes `\uXXXX` (with a UTF-16 surrogate pair for astral characters). -/
def escapeChar (c : Char) : List Char :=
  if c = '"' then ['\\', '"']
  else if c = '\\' then ['\\', '\\']
  else if c = chr 8 then ['\\', 'b']
  else if c = chr 9 then ['\\', 't']
  else if c = chr 10 then ['\\', 'n']
  else if c = chr 12 then ['\\', 'f']
  else if c = chr 13 then ['\\', 'r']
  else if 32 ≤ c.toNat ∧ c.toNat ≤ 126 then [c]
  else if c.toNat < 65536 then '\\' :: 'u' :: toHex4 c.toNat
  else
    '\\' :: 'u' :: toHex4 (55296 + (c.toNat - 65536) / 1024) ++
      ('\\' :: 'u' :: toHex4 (56320 + (c.toNat - 65536) % 1024))

/-- Escaped body of a JSON string (content between the quotes). -/
def escBody : List Char → List Char
  | [] => []
  | c :: t => escapeChar c ++ escBody t

/-- `json.dumps` of a Python string. -/
def encodeStr (s : List Char) : List Char :=
  '"' :: escBody s ++ ['"']

mutual
/-- `json.dumps` of a JSON value, with the default separators
`", "` and `": "` used by both sides of the bridge. -/
def encodeJson : Json → List Char
  | .null => strL "null"
  | .bool true => strL "true"
  | .bool false => strL "false"
  | .num n => encodeInt n
  | .str s => encodeStr s
  | .arr xs => '[' :: encodeElems xs ++ [']']
  | .obj ms => lbrace :: encodeMembers ms ++ [rbrace]

/-- Array elements joined by `", "`. -/
def encodeElems : JsonList → List Char
  | .nil => []
  | .cons v .nil => encodeJson v
  | .cons v (.cons w t) => encodeJson v ++ ',' :: ' ' :: encodeElems (.cons w t)

/-- Object members `"key": value` joined by `", "`. -/
def encodeMembers : JsonMembers → List Char
  | .nil => []
  | .cons k v .nil => encodeStr k ++ ':' :: ' ' :: encodeJson v
  | .cons k v (.cons k2 v2 t) =>
      encodeStr k ++ ':' :: ' ' :: encodeJson v ++
        ',' :: ' ' :: encodeMembers (.cons k2 v2 t)
end

/-- Skip insignificant whitespace (the tokenizer position advance of
Python `json.loads`). -/
def skipWs : List Char → List Char
  | [] => []
  | c :: t => if isWsChar c then skipWs t else c :: t

/-- Read four hexadecimal digits and return their value. -/
def readHex4 : List Char → Option (Nat × List Char)
  | h1 :: h2 :: h3 :: h4 :: r =>
    match hexDigitVal h1, hexDigitVal h2, hexDigitVal h3, hexDigitVal h4 with
    | some a, some b, some c, some d => some (a * 4096 + b * 256 + c * 16 + d, r)
    | _, _, _, _ => none
  | _ => none

/-- Decode a `\uXXXX` escape (input starts after the `\u`): a high
surrogate must be followed by a `\uXXXX` low surrogate (the pair combines
into one astral character); a lone low surrogate is rejected (it cannot
inhabit `Char`; the encoder never produces one). -/
def readEscU (s : List Char) : Option (Char × List Char) :=
  match readHex4 s with
  | none => none
  | some (code, r2) =>
    if 55296 ≤ code ∧ code < 56320 then
      match r2 with
      | '\\' :: 'u' :: r2' =>
        match readHex4 r2' with
        | some (lo, r3) =>
          if 56320 ≤ lo ∧ lo < 57344 then
            some (chr (65536 + (code - 55296) * 1024 + (lo - 56320)), r3)
          else none
        | none => none
      | _ => none
    else if 56320 ≤ code ∧ code < 57344 then none
    else some (chr code, r2)

/-- Decode one backslash escape (input starts after the backslash). -/
def readEsc : List Char → Option (Char × List Char)
  | [] => none
  | e :: rest =>
    if e = '"' then some ('"', rest)
    else if e = '\\' then some ('\\', rest)
    else if e = '/' then some ('/', rest)
    else if e = 'b' then some (chr 8, rest)
    else if e = 'f' then some (chr 12, rest)
    else if e = 'n' then some (chr 10, rest)
    else if e = 'r' then some (chr 13, rest)
    else if e = 't' then some (chr 9, rest)
    else if e = 'u' then readEscU rest
    else none

theorem readHex4_length {s r : List Char} {n : Nat} (h : readHex4 s = some (n, r)) :
    r.length + 4 = s.length := by
  match s with
  | [] => simp [readHex4] at h
  | [a] => simp [readHex4] at h
  | [a, b] => simp [readHex4] at h
  | [a, b, c] => simp [readHex4] at h
  | a :: b :: c :: d :: t =>
    rw [readHex4] at h
    split at h
    · simp only [Option.some.injEq, Prod.mk.injEq] at h
      simp [← h.2]
    · simp at h

theorem readEscU_length {s r : List Char} {ch : Char} (h : readEscU s = some (ch, r)) :
    r.length < s.length := by
  rw [readEscU] at h
  cases hh : readHex4 s with
  | none => rw [hh] at h; simp at h
  | some p =>
    obtain ⟨code, r2⟩ := p
    rw [hh] at h
    have hl2 := readHex4_length hh
    simp only at h
    split_ifs at h with h1 h2
    · split at h
      · rename_i r2'
        cases hh2 : readHex4 r2' with
        | none => rw [hh2] at h; simp at h
        | some p2 =>
          obtain ⟨lo, r3⟩ := p2
          rw [hh2] at h
          have hl3 := readHex4_length hh2
          simp only at h
          split_ifs at h with h3
          simp only [Option.some.injEq, Prod.mk.injEq] at h
          obtain ⟨-, hr⟩ := h
          subst hr
          simp only [List.length_cons] at hl2
          omega
      · simp at h
    · simp only [Option.some.injEq, Prod.mk.injEq] at h
      obtain ⟨-, hr⟩ := h
      subst hr
      omega

theorem readEsc_length {s r : List Char} {ch : Char} (h : readEsc s = some (ch, r)) :
    r.length < s.length := by
  match s with
  | [] => simp [readEsc] at h
  | e :: rest =>
    rw [readEsc] at h
    split_ifs at h with h1 h2 h3 h4 h5 h6 h7 h8 h9 <;>
      first
        | (exact Nat.lt_succ_of_lt (readEscU_length h))
        | (simp only [Option.some.injEq, Prod.mk.injEq] at h
           simp [← h.2])

/-- Scanner for the body of a JSON string after the opening quote
(Python `json.scanner.py_scanstring`, strict mode): returns the decoded
content and the input after the closing quote.  Unterminated strings,
invalid escapes and unescaped control characters are rejected (`none`). -/
def parseStrBody (s : List Char) : Option (List Char × List Char) :=
  match s with
  | [] => none
  | c :: rest =>
    if c = '"' then some ([], rest)
    else if c = '\\' then
      match _h : readEsc rest with
      | none => none
      | some (ch, r2) => (parseStrBody r2).map (fun p => (ch :: p.1, p.2))
    else if c.toNat < 32 then none
    else (parseStrBody rest).map (fun p => (c :: p.1, p.2))
termination_by s.length
decreasing_by
  · have := readEsc_length _h
    simp only [List.length_cons]
    omega
  · simp only [List.length_cons]
    omega

/-- Greedily consume decimal digits, accumulating their value
(the integer part scan of the JSON number grammar). -/
def munchDigits (acc : Nat) : List Char → Nat × List Char
  | [] => (acc, [])
  | c :: rest =>
    if isDigitChar c then munchDigits (acc * 10 + (c.toNat - 48)) rest
    else (acc, c :: rest)

/-- Unsigned integer part of a JSON number: `0`, or a nonzero digit
followed by any digits (the `(?:0|[1-9]\d*)` of Python's NUMBER_RE). -/
def parseUInt (s : List Char) : Option (Nat × List Char) :=
  match s with
  | [] => none
  | c :: rest =>
    if c = '0' then some (0, rest)
    else if isDigitChar c then some (munchDigits 0 s)
    else none

/-- True when the input does not continue with a decimal digit, so a
maximal-munch digit scan stops exactly here. -/
def noDigitHead : List Char → Bool
  | [] => true
  | c :: _ => !(isDigitChar c)

/-- True when a fraction or exponent part follows, which would make the
number a float; float literals are out of model, so the parser rejects
them rather than misreading them as integers. -/
def floatFollows : List Char → Bool
  | [] => false
  | c :: _ => c = '.' || c = 'e' || c = 'E'

/-- JSON number parser restricted to integers (optional minus sign and an
integer part, per the JSON number grammar). -/
def parseNum (s : List Char) : Option (Json × List Char) :=
  match s with
  | [] => none
  | c :: rest =>
    if c = '-' then
      match parseUInt rest with
      | some (k, r2) => if floatFollows r2 then none else some (.num (-(k : Int)), r2)
      | none => none
    else
      match parseUInt (c :: rest) with
      | some (k, r2) => if floatFollows r2 then none else some (.num (k : Int), r2)
      | none => none

mutual
/-- Recursive-descent JSON value parser (Python `json.loads`'s scanner),
fuelled to make the nested recursion structural.  Returns the value and the
unconsumed input. -/
def parseVal : Nat → List Char → Option (Json × List Char)
  | 0, _ => none
  | n + 1, s =>
    match skipWs s with
    | [] => none
    | c :: r =>
      if c = 'n' then
        match r with
        | 'u' :: 'l' :: 'l' :: r2 => some (.null, r2)
        | _ => none
      else if c = 't' then
        match r with
        | 'r' :: 'u' :: 'e' :: r2 => some (.bool true, r2)
        | _ => none
      else if c = 'f' then
        match r with
        | 'a' :: 'l' :: 's' :: 'e' :: r2 => some (.bool false, r2)
        | _ => none
      else if c = '"' then
        (parseStrBody r).map (fun p => (.str p.1, p.2))
      else if c = '[' then
        (parseElems n r).map (fun p => (.arr p.1, p.2))
      else if c = lbrace then
        (parseMembers n r).map (fun p => (.obj p.1, p.2))
      else parseNum (c :: r)

/-- Parse the inside of an array after `[`: empty array or element list. -/
def parseElems : Nat → List Char → Option (JsonList × List Char)
  | 0, _ => none
  | n + 1, s =>
    match skipWs s with
    | [] => parseElemsCont n []
    | c :: r => if c = ']' then some (.nil, r) else parseElemsCont n (c :: r)

/-- Parse one array element and then `, more` or `]`.  A trailing comma is
rejected, as in Python. -/
def parseElemsCont : Nat → List Char → Option (JsonList × List Char)
  | 0, _ => none
  | n + 1, s =>
    match parseVal n s with
    | none => none
    | some (v, r) =>
      match skipWs r with
      | [] => none
      | c :: r2 =>
        if c = ']' then some (.cons v .nil, r2)
        else if c = ',' then
          match parseElemsCont n r2 with
          | none => none
          | some (vs, r3) => some (.cons v vs, r3)
        else none

/-- Parse the inside of an object after the opening brace: empty object or
member list. -/
def parseMembers : Nat → List Char → Option (JsonMembers × List Char)
  | 0, _ => none
  | n + 1, s =>
    match skipWs s with
    | c :: r =>
      if c = rbrace then some (.nil, r) else parseMembersCont n (c :: r)
    | [] => parseMembersCont n []

/-- Parse one `"key": value` member and then `, more` or the closing
brace. -/
def parseMembersCont : Nat → List Char → Option (JsonMembers × List Char)
  | 0, _ => none
  | n + 1, s =>
    match skipWs s with
    | [] => none
    | q :: r =>
      if q = '"' then
        match parseStrBody r with
        | none => none
        | some (k, r1) =>
          match skipWs r1 with
          | [] => none
          | c1 :: r2 =>
            if c1 = ':' then
              match parseVal n r2 with
              | none => none
              | some (v, r3) =>
                match skipWs r3 with
                | [] => none
                | c :: r4 =>
                  if c = rbrace then some (.cons k v .nil, r4)
                  else if c = ',' then
                    match parseMembersCont n r4 with
                    | none => none
                    | some (ms, r5) => some (.cons k v ms, r5)
                  else none
            else none
      else none
end

/-- Python `json.loads` on a whole document: parse one value and require
only whitespace to remain.  The fuel `2 * s.length + 1` always suffices:
the descent spends at most two fuel units per consumed character (one for
the value step and one for the element/member continuation), as the bound
`nfuel_le` makes precise on encoder output. -/
def jsonLoads (s : List Char) : Option Json :=
  match parseVal (2 * s.length + 1) s with
  | some (v, rest) => if skipWs rest = [] then some v else none
  | none => none

/-! ### Character facts -/

theorem chr_toNat {n : Nat} (h : n.isValidChar) : (chr n).toNat = n := by
  simp [chr, Char.ofNat, h, Char.toNat, Char.ofNatAux, UInt32.ofNatCore,
    UInt32.toNat, BitVec.toNat_ofNatLt]

theorem chr_toNat_lo {n : Nat} (h : n < 55296) : (chr n).toNat = n :=
  chr_toNat (Or.inl h)

theorem char_valid_cases (c : Char) :
    c.toNat < 55296 ∨ (57343 < c.toNat ∧ c.toNat < 1114112) := by
  rcases c.valid with h | h
  · exact Or.inl h
  · exact Or.inr h

theorem chr_toNat_self (c : Char) : chr c.toNat = c := Char.ofNat_toNat c

theorem char_toNat_ne {c d : Char} (h : c.toNat ≠ d.toNat) : c ≠ d := by
  intro he; exact h (by rw [he])

theorem char_eq_of_toNat {c d : Char} (h : c.toNat = d.toNat) : c = d := by
  have := congrArg chr h
  rwa [chr_toNat_self, chr_toNat_self] at this

/-! ### Whitespace lemmas -/

theorem skipWs_nil : skipWs [] = [] := rfl

theorem skipWs_cons_not_ws {c : Char} (t : List Char) (h : isWsChar c = false) :
    skipWs (c :: t) = c :: t := by
  simp [skipWs, h]

theorem skipWs_cons_ws {c : Char} (t : List Char) (h : isWsChar c = true) :
    skipWs (c :: t) = skipWs t := by
  simp [skipWs, h]

theorem skipWs_space (t : List Char) : skipWs (' ' :: t) = skipWs t :=
  skipWs_cons_ws t (by decide)

theorem isWsChar_of_digit {c : Char} (h : isDigitChar c = true) : isWsChar c = false := by
  simp only [isDigitChar, Bool.and_eq_true, decide_eq_true_eq] at h
  simp only [isWsChar, Bool.or_eq_false_iff, decide_eq_false_iff_not]
  refine ⟨⟨⟨?_, ?_⟩, ?_⟩, ?_⟩ <;>
    · intro he; subst he; revert h; decide

/-! ### Decimal digits: encoding and scanning -/

theorem digitChar_toNat {n : Nat} (h : n < 10) : (digitChar n).toNat = 48 + n := by
  simp only [digitChar]; exact chr_toNat_lo (by omega)

theorem isDigitChar_digitChar {n : Nat} (h : n < 10) :
    isDigitChar (digitChar n) = true := by
  simp [isDigitChar, digitChar_toNat h]; omega

theorem natDigits_all_digits : ∀ n : Nat, ∀ c ∈ natDigits n, isDigitChar c = true := by
  intro n
  induction n using Nat.strong_induction_on with
  | _ n ih =>
    intro c hc
    rw [natDigits] at hc
    by_cases h : n < 10
    · simp [h] at hc
      subst hc
      exact isDigitChar_digitChar h
    · simp [h] at hc
      rcases hc with hc | hc
      · exact ih (n / 10) (Nat.div_lt_self (by omega) (by omega)) c hc
      · subst hc
        exact isDigitChar_digitChar (by omega)

theorem natDigits_ne_nil (n : Nat) : natDigits n ≠ [] := by
  rw [natDigits]
  by_cases h : n < 10 <;> simp [h]

theorem natDigits_head :
    ∀ n : Nat, 1 ≤ n → ∃ c t, natDigits n = c :: t ∧ isDigitChar c = true ∧ c ≠ '0' := by
  intro n
  induction n using Nat.strong_induction_on with
  | _ n ih =>
    intro hn
    rw [natDigits]
    by_cases h : n < 10
    · refine ⟨digitChar n, [], by simp [h], isDigitChar_digitChar h, ?_⟩
      apply char_toNat_ne
      rw [show ('0' : Char).toNat = 48 from rfl, digitChar_toNat h]
      omega
    · obtain ⟨c, t, he, hd, hz⟩ := ih (n / 10) (Nat.div_lt_self (by omega) (by omega))
        (by omega)
      exact ⟨c, t ++ [digitChar (n % 10)], by simp [h, he], hd, hz⟩

theorem munchDigits_stop {rest : List Char} (acc : Nat) (h : noDigitHead rest = true) :
    munchDigits acc rest = (acc, rest) := by
  cases rest with
  | nil => rfl
  | cons c t =>
    simp only [noDigitHead, Bool.not_eq_true'] at h
    simp [munchDigits, h]

theorem munchDigits_natDigits :
    ∀ n acc : Nat, ∀ rest : List Char,
      munchDigits acc (natDigits n ++ rest) =
        munchDigits (acc * 10 ^ (natDigits n).length + n) rest := by
  intro n
  induction n using Nat.strong_induction_on with
  | _ n ih =>
    intro acc rest
    rw [natDigits]
    by_cases h : n < 10
    · have hd : isDigitChar (digitChar n) = true := isDigitChar_digitChar h
      have hv : (digitChar n).toNat - 48 = n := by rw [digitChar_toNat h]; omega
      simp [h, munchDigits, hd, hv]
    · have hrec := ih (n / 10) (Nat.div_lt_self (by omega) (by omega))
      have hd : isDigitChar (digitChar (n % 10)) = true := isDigitChar_digitChar (by omega)
      have hv : (digitChar (n % 10)).toNat - 48 = n % 10 := by
        rw [digitChar_toNat (by omega)]; omega
      rw [dif_neg h]
      simp only [List.append_assoc, List.cons_append, List.nil_append]
      rw [hrec acc (digitChar (n % 10) :: rest)]
      simp only [munchDigits, hd, if_true, hv, List.length_append, List.length_cons,
        List.length_nil]
      congr 1
      have hpow : 10 ^ ((natDigits (n / 10)).length + (0 + 1)) =
          10 ^ (natDigits (n / 10)).length * 10 := by
        rw [Nat.zero_add, Nat.pow_succ]
      rw [hpow]
      have := Nat.div_add_mod n 10
      ring_nf
      omega

theorem parseUInt_natDigits (n : Nat) (rest : List Char) (h : noDigitHead rest = true) :
    parseUInt (natDigits n ++ rest) = some (n, rest) := by
  by_cases hz : n = 0
  · subst hz
    have : natDigits 0 = ['0'] := by rw [natDigits]; decide
    rw [this]
    simp [parseUInt]
  · obtain ⟨c, t, he, hd, hne⟩ := natDigits_head n (by omega)
    rw [he]
    simp only [List.cons_append, parseUInt, hne, if_false, hd, if_true]
    rw [← List.cons_append, ← he, munchDigits_natDigits, munchDigits_stop _ h]
    simp

theorem parseNum_encodeInt (n : Int) (rest : List Char)
    (hd : noDigitHead rest = true) (hf : floatFollows rest = false) :
    parseNum (encodeInt n ++ rest) = some (.num n, rest) := by
  by_cases hneg : n < 0
  · simp only [encodeInt, hneg, if_true, List.cons_append, parseNum, if_pos rfl]
    rw [parseUInt_natDigits _ _ hd]
    simp [hf, Int.natCast_natAbs, abs_of_neg hneg]
  · simp only [encodeInt, hneg, if_false]
    obtain ⟨c, t, he⟩ : ∃ c t, natDigits n.toNat = c :: t := by
      cases hh : natDigits n.toNat with
      | nil => exact absurd hh (natDigits_ne_nil _)
      | cons c t => exact ⟨c, t, rfl⟩
    have hdig : isDigitChar c = true :=
      natDigits_all_digits n.toNat c (by rw [he]; exact List.mem_cons_self ..)
    have hnm : c ≠ '-' := by
      apply char_toNat_ne
      rw [show ('-' : Char).toNat = 45 from rfl]
      simp only [isDigitChar, Bool.and_eq_true, decide_eq_true_eq] at hdig
      omega
    rw [he]
    simp only [List.cons_append, parseNum, hnm, if_false]
    rw [← List.cons_append, ← he, parseUInt_natDigits _ _ hd]
    simp [hf]
    omega

/-! ### String escaping: hex digits and the character scan -/

theorem hexDigitVal_hexChar {k : Nat} (h : k < 16) : hexDigitVal (hexChar k) = some k := by
  by_cases h10 : k < 10
  · have ht : (hexChar k).toNat = 48 + k := by
      simp only [hexChar, if_pos h10]; exact chr_toNat_lo (by omega)
    rw [hexDigitVal, ht, if_pos (by omega)]
    congr 1; omega
  · have ht : (hexChar k).toNat = 87 + k := by
      simp only [hexChar, if_neg h10]; exact chr_toNat_lo (by omega)
    rw [hexDigitVal, ht, if_neg (by omega), if_pos (by omega)]
    congr 1; omega

theorem hex4_reassemble {n : Nat} (_h : n < 65536) :
    n / 4096 * 4096 + n / 256 % 16 * 256 + n / 16 % 16 * 16 + n % 16 = n := by
  omega

theorem readHex4_toHex4 {n : Nat} (h : n < 65536) (r : List Char) :
    readHex4 (toHex4 n ++ r) = some (n, r) := by
  rw [toHex4]
  show readHex4 (hexChar (n / 4096) :: hexChar (n / 256 % 16) :: hexChar (n / 16 % 16)
    :: hexChar (n % 16) :: r) = _
  rw [readHex4]
  rw [hexDigitVal_hexChar (show n / 4096 < 16 by omega),
    hexDigitVal_hexChar (show n / 256 % 16 < 16 by omega),
    hexDigitVal_hexChar (show n / 16 % 16 < 16 by omega),
    hexDigitVal_hexChar (show n % 16 < 16 by omega)]
  simp only []
  rw [hex4_reassemble h]

theorem readEscU_bmp {code : Nat} (r : List Char) (hlt : code < 65536)
    (hns : code < 55296 ∨ 57343 < code) :
    readEscU (toHex4 code ++ r) = some (chr code, r) := by
  rw [readEscU, readHex4_toHex4 hlt]
  simp only []
  rw [if_neg (by omega), if_neg (by omega)]

theorem readEscU_astral {m : Nat} (r : List Char) (hm : m < 1048576) :
    readEscU (toHex4 (55296 + m / 1024) ++
      ('\\' :: 'u' :: (toHex4 (56320 + m % 1024) ++ r))) = some (chr (65536 + m), r) := by
  rw [readEscU, readHex4_toHex4 (by omega)]
  simp only []
  rw [if_pos (by omega)]
  rw [readHex4_toHex4 (by omega)]
  simp only []
  rw [if_pos (by omega)]
  have harith : 65536 + (55296 + m / 1024 - 55296) * 1024 + (56320 + m % 1024 - 56320)
      = 65536 + m := by omega
  rw [harith]

theorem parseStrBody_nil : parseStrBody [] = none := by
  conv_lhs => rw [parseStrBody.eq_def]

theorem parseStrBody_quote (rest : List Char) :
    parseStrBody ('"' :: rest) = some ([], rest) := by
  conv_lhs => rw [parseStrBody.eq_def]
  dsimp only
  rw [if_pos rfl]

theorem parseStrBody_esc {rest : List Char} {ch : Char} {r2 : List Char}
    (h : readEsc rest = some (ch, r2)) :
    parseStrBody ('\\' :: rest) = (parseStrBody r2).map (fun p => (ch :: p.1, p.2)) := by
  conv_lhs => rw [parseStrBody.eq_def]
  dsimp only
  rw [if_neg (by decide), if_pos rfl]
  split
  · rename_i heq
    rw [heq] at h; simp at h
  · rename_i ch' r2' heq
    rw [heq] at h
    simp only [Option.some.injEq, Prod.mk.injEq] at h
    rw [h.1, h.2]

theorem parseStrBody_esc_fail {rest : List Char} (h : readEsc rest = none) :
    parseStrBody ('\\' :: rest) = none := by
  conv_lhs => rw [parseStrBody.eq_def]
  dsimp only
  rw [if_neg (by decide), if_pos rfl]
  split
  · rfl
  · rename_i ch' r2' heq
    rw [heq] at h; simp at h

theorem parseStrBody_lit {c : Char} (rest : List Char) (h1 : c ≠ '"') (h2 : c ≠ '\\')
    (h3 : ¬c.toNat < 32) :
    parseStrBody (c :: rest) = (parseStrBody rest).map (fun p => (c :: p.1, p.2)) := by
  conv_lhs => rw [parseStrBody.eq_def]
  dsimp only
  rw [if_neg h1, if_neg h2, if_neg h3]

theorem parseStrBody_ctl {c : Char} (rest : List Char) (h1 : c ≠ '"') (h2 : c ≠ '\\')
    (h3 : c.toNat < 32) :
    parseStrBody (c :: rest) = none := by
  conv_lhs => rw [parseStrBody.eq_def]
  dsimp only
  rw [if_neg h1, if_neg h2, if_pos h3]

/-- One escaped character block scans back to that character: the workhorse
for both the string round-trip and the string prefix-failure lemmas. -/
theorem parseStrBody_escape (c : Char) (r : List Char) :
    parseStrBody (escapeChar c ++ r) =
      (parseStrBody r).map (fun p => (c :: p.1, p.2)) := by
  unfold escapeChar
  split_ifs with h1 h2 h3 h4 h5 h6 h7 h8 h9
  · subst h1
    rw [List.cons_append, List.cons_append, List.nil_append,
      parseStrBody_esc (show readEsc ('"' :: r) = some ('"', r) by simp [readEsc])]
  · subst h2
    rw [List.cons_append, List.cons_append, List.nil_append,
      parseStrBody_esc (show readEsc ('\\' :: r) = some ('\\', r) by
        simp [readEsc])]
  · subst h3
    rw [List.cons_append, List.cons_append, List.nil_append,
      parseStrBody_esc (show readEsc ('b' :: r) = some (chr 8, r) by
        simp [readEsc])]
  · subst h4
    rw [List.cons_append, List.cons_append, List.nil_append,
      parseStrBody_esc (show readEsc ('t' :: r) = some (chr 9, r) by
        simp [readEsc])]
  · subst h5
    rw [List.cons_append, List.cons_append, List.nil_append,
      parseStrBody_esc (show readEsc ('n' :: r) = some (chr 10, r) by
        simp [readEsc])]
  · subst h6
    rw [List.cons_append, List.cons_append, List.nil_append,
      parseStrBody_esc (show readEsc ('f' :: r) = some (chr 12, r) by
        simp [readEsc])]
  · subst h7
    rw [List.cons_append, List.cons_append, List.nil_append,
      parseStrBody_esc (show readEsc ('r' :: r) = some (chr 13, r) by
        simp [readEsc])]
  · -- printable ASCII characters are copied verbatim
    show parseStrBody (c :: r) = _
    exact parseStrBody_lit r h1 h2 (by omega)
  · -- basic-plane non-printable characters: a single \uXXXX escape
    have hval : c.toNat < 55296 ∨ 57343 < c.toNat := by
      rcases char_valid_cases c with hv | hv
      · exact Or.inl hv
      · exact Or.inr hv.1
    show parseStrBody (('\\' :: 'u' :: toHex4 c.toNat) ++ r) = _
    simp only [List.cons_append]
    rw [parseStrBody_esc (show readEsc ('u' :: (toHex4 c.toNat ++ r))
      = some (chr c.toNat, r) from ?_), chr_toNat_self]
    rw [readEsc]
    rw [if_neg (by decide), if_neg (by decide), if_neg (by decide), if_neg (by decide),
      if_neg (by decide), if_neg (by decide), if_neg (by decide), if_neg (by decide),
      if_pos rfl]
    exact readEscU_bmp r h9 hval
  · -- astral characters: a UTF-16 surrogate pair
    have hlt : c.toNat < 1114112 := by
      rcases char_valid_cases c with hv | hv
      · omega
      · exact hv.2
    have hge : 65536 ≤ c.toNat := by omega
    have hu : readEsc ('u' :: (toHex4 (55296 + (c.toNat - 65536) / 1024) ++
        ('\\' :: 'u' :: (toHex4 (56320 + (c.toNat - 65536) % 1024) ++ r))))
        = some (chr (65536 + (c.toNat - 65536)), r) := by
      rw [readEsc]
      rw [if_neg (by decide), if_neg (by decide), if_neg (by decide), if_neg (by decide),
        if_neg (by decide), if_neg (by decide), if_neg (by decide), if_neg (by decide),
        if_pos rfl]
      exact readEscU_astral r (by omega)
    show parseStrBody (('\\' :: 'u' :: (toHex4 (55296 + (c.toNat - 65536) / 1024) ++
      ('\\' :: 'u' :: toHex4 (56320 + (c.toNat - 65536) % 1024)))) ++ r) = _
    simp only [List.cons_append, List.append_assoc]
    rw [parseStrBody_esc hu]
    have : 65536 + (c.toNat - 65536) = c.toNat := by omega
    rw [this, chr_toNat_self]

/-! ### String scanning: round trip and prefix failure -/

/-- Round trip for string bodies: the escaped body followed by the closing
quote scans back to the original content. -/
theorem parseStrBody_escBody (cs : List Char) (rest : List Char) :
    parseStrBody (escBody cs ++ '"' :: rest) = some (cs, rest) := by
  induction cs with
  | nil => simp [escBody, parseStrBody_quote]
  | cons c cs ih =>
    show parseStrBody ((escapeChar c ++ escBody cs) ++ '"' :: rest) = _
    rw [List.append_assoc, parseStrBody_escape, ih]
    rfl

theorem readHex4_short {s : List Char} (h : s.length < 4) : readHex4 s = none := by
  match s, h with
  | [], _ => rfl
  | [a], _ => rfl
  | [a, b], _ => rfl
  | [a, b, c], _ => rfl

theorem readEsc_u (r : List Char) : readEsc ('u' :: r) = readEscU r := by
  rw [readEsc]
  rw [if_neg (by decide), if_neg (by decide), if_neg (by decide), if_neg (by decide),
    if_neg (by decide), if_neg (by decide), if_neg (by decide), if_neg (by decide),
    if_pos rfl]

theorem readEscU_short {s : List Char} (h : s.length < 4) : readEscU s = none := by
  rw [readEscU, readHex4_short h]

theorem parseStrBody_single_backslash : parseStrBody ['\\'] = none :=
  parseStrBody_esc_fail rfl

/-- A strict prefix of a two-character escape block never scans. -/
theorem block2_pfx_fail {x : Char} :
    ∀ p c2 : List Char, ['\\', x] = p ++ c2 → c2 ≠ [] → parseStrBody p = none := by
  intro p c2 he hne
  match p with
  | [] => exact parseStrBody_nil
  | d1 :: p1 =>
    rw [List.cons_append] at he
    injection he with ha hb
    subst ha
    match p1 with
    | [] => exact parseStrBody_single_backslash
    | d2 :: p2 =>
      rw [List.cons_append] at hb
      injection hb with hc hd
      have hc2 : c2 = [] := by
        cases p2 with
        | nil => simpa using hd.symm
        | cons z zs => simp at hd
      exact absurd hc2 hne

/-- After `\u`, a strict prefix of the escape's hex-digit payload never
scans: the `\uXXXX` (and, for a high surrogate, the following `\uXXXX`)
must arrive in full. -/
theorem uPayload_pfx_fail_bmp {code : Nat} :
    ∀ p2 c2 : List Char, toHex4 code = p2 ++ c2 → c2 ≠ [] →
      readEscU p2 = none := by
  intro p2 c2 he hne
  apply readEscU_short
  have := congrArg List.length he
  simp only [toHex4, List.length_cons, List.length_nil, List.length_append] at this
  rcases c2 with _ | ⟨x, xs⟩
  · exact absurd rfl hne
  · simp at this; omega

/-- A strict prefix of one escape block never scans: the block is only
meaningful in full. -/
theorem escapeChar_pfx_fail (c : Char) :
    ∀ p c2 : List Char, escapeChar c = p ++ c2 → c2 ≠ [] → parseStrBody p = none := by
  unfold escapeChar
  split_ifs with h1 h2 h3 h4 h5 h6 h7 h8 h9 <;> intro p c2 he hne
  case pos => exact block2_pfx_fail p c2 he hne
  case pos => exact block2_pfx_fail p c2 he hne
  case pos => exact block2_pfx_fail p c2 he hne
  case pos => exact block2_pfx_fail p c2 he hne
  case pos => exact block2_pfx_fail p c2 he hne
  case pos => exact block2_pfx_fail p c2 he hne
  case pos => exact block2_pfx_fail p c2 he hne
  -- printable character: the only strict prefix is empty
  case pos =>
    match p with
    | [] => exact parseStrBody_nil
    | d :: p1 =>
      rw [List.cons_append] at he
      injection he with ha hb
      have hc2 : c2 = [] := by
        cases p1 with
        | nil => simpa using hb.symm
        | cons z zs => simp at hb
      exact absurd hc2 hne
  -- \uXXXX block
  case pos =>
    match p with
    | [] => exact parseStrBody_nil
    | d1 :: p1 =>
      rw [List.cons_append] at he
      injection he with ha hb
      subst ha
      match p1 with
      | [] => exact parseStrBody_single_backslash
      | d2 :: p2 =>
        rw [List.cons_append] at hb
        injection hb with hc hd
        subst hc
        rw [parseStrBody_esc_fail]
        rw [readEsc_u]
        exact uPayload_pfx_fail_bmp p2 c2 hd hne
  -- surrogate-pair block
  case neg =>
    have hlt : c.toNat < 1114112 := by
      rcases char_valid_cases c with hv | hv
      · omega
      · exact hv.2
    have hhi : 55296 + (c.toNat - 65536) / 1024 < 65536 := by omega
    match p with
    | [] => exact parseStrBody_nil
    | d1 :: p1 =>
      rw [show ('\\' :: 'u' :: toHex4 (55296 + (c.toNat - 65536) / 1024) ++
        ('\\' :: 'u' :: toHex4 (56320 + (c.toNat - 65536) % 1024)))
        = '\\' :: ('u' :: (toHex4 (55296 + (c.toNat - 65536) / 1024) ++
          ('\\' :: 'u' :: toHex4 (56320 + (c.toNat - 65536) % 1024)))) by
        simp] at he
      rw [List.cons_append] at he
      injection he with ha hb
      subst ha
      match p1 with
      | [] => exact parseStrBody_single_backslash
      | d2 :: p2 =>
        rw [List.cons_append] at hb
        injection hb with hc hd
        subst hc
        rw [parseStrBody_esc_fail]
        rw [readEsc_u]
        -- p2 ++ c2 = toHex4 hi ++ ('\\' :: 'u' :: toHex4 lo)
        rcases List.append_eq_append_iff.mp hd.symm with ⟨a', hA, hB⟩ | ⟨c', hC, hD⟩
        · -- p2 sits inside the first four hex digits: toHex4 hi = p2 ++ a'
          rcases eq_or_ne a' [] with ha' | ha'
          · subst ha'
            rw [List.append_nil] at hA
            rw [← hA]
            rw [readEscU]
            rw [show toHex4 (55296 + (c.toNat - 65536) / 1024)
              = toHex4 (55296 + (c.toNat - 65536) / 1024) ++ []
              from (List.append_nil _).symm, readHex4_toHex4 hhi]
            simp only []
            rw [if_pos (by omega)]
          · have hlen : p2.length < 4 := by
              have := congrArg List.length hA
              simp only [toHex4, List.length_cons, List.length_nil,
                List.length_append] at this
              rcases a' with _ | ⟨x, xs⟩
              · exact absurd rfl ha'
              · simp at this; omega
            exact readEscU_short hlen
        · -- p2 extends the first four hex digits: p2 = toHex4 hi ++ c'
          subst hC
          rw [readEscU, readHex4_toHex4 hhi]
          simp only []
          rw [if_pos (by omega)]
          -- c' is a strict prefix of '\\' :: 'u' :: toHex4 lo
          match c' with
          | [] => rfl
          | e1 :: a1 =>
            rw [List.cons_append] at hD
            injection hD with hf hg
            subst hf
            match a1 with
            | [] => rfl
            | e2 :: p4 =>
              rw [List.cons_append] at hg
              injection hg with hi2 hj
              subst hi2
              have hlen : p4.length < 4 := by
                have := congrArg List.length hj
                simp only [toHex4, List.length_cons, List.length_nil,
                  List.length_append] at this
                rcases c2 with _ | ⟨x, xs⟩
                · exact absurd rfl hne
                · simp at this; omega
              simp only []
              rw [readHex4_short hlen]

/-- A strict prefix of an encoded string body (content plus closing quote)
never scans: the scanner is still waiting for more input. -/
theorem parseStrBody_pfx_fail :
    ∀ (cs p s2 : List Char), escBody cs ++ ['"'] = p ++ s2 → s2 ≠ [] →
      parseStrBody p = none := by
  intro cs
  induction cs with
  | nil =>
    intro p s2 he hne
    match p with
    | [] => exact parseStrBody_nil
    | d :: p1 =>
      simp only [escBody, List.nil_append, List.cons_append] at he
      injection he with ha hb
      have hc2 : s2 = [] := by
        cases p1 with
        | nil => simpa using hb.symm
        | cons z zs => simp at hb
      exact absurd hc2 hne
  | cons c cs ih =>
    intro p s2 he hne
    rw [show escBody (c :: cs) ++ ['"'] = escapeChar c ++ (escBody cs ++ ['"']) by
      simp [escBody]] at he
    rcases List.append_eq_append_iff.mp he with ⟨a', hA, hB⟩ | ⟨c', hC, hD⟩
    · -- p extends the full first block
      subst hA
      rw [parseStrBody_escape, ih a' s2 hB hne]
      rfl
    · -- p ends inside the first block
      rcases eq_or_ne c' [] with hc' | hc'
      · subst hc'
        rw [List.append_nil] at hC
        subst hC
        rw [show escapeChar c = escapeChar c ++ [] from (List.append_nil _).symm,
          parseStrBody_escape, parseStrBody_nil]
        rfl
      · exact escapeChar_pfx_fail c p c' hC hc'

/-! ### Value parser: dispatch lemmas -/

theorem parseVal_zero (s : List Char) : parseVal 0 s = none := rfl

theorem parseVal_nil : ∀ n, parseVal n [] = none := by
  intro n
  cases n with
  | zero => rfl
  | succ n => rw [parseVal]; rfl

theorem parseVal_ws (n : Nat) (s : List Char) : parseVal n (' ' :: s) = parseVal n s := by
  cases n with
  | zero => rfl
  | succ n => rw [parseVal, parseVal, skipWs_space]

theorem parseVal_null (n : Nat) (r : List Char) :
    parseVal (n + 1) ('n' :: 'u' :: 'l' :: 'l' :: r) = some (Json.null, r) := by
  rw [parseVal, skipWs_cons_not_ws _ (by decide)]
  simp only []
  rw [if_pos trivial]

theorem parseVal_true (n : Nat) (r : List Char) :
    parseVal (n + 1) ('t' :: 'r' :: 'u' :: 'e' :: r) = some (Json.bool true, r) := by
  rw [parseVal, skipWs_cons_not_ws _ (by decide)]
  simp only []
  rw [if_neg (by decide), if_pos trivial]

theorem parseVal_false (n : Nat) (r : List Char) :
    parseVal (n + 1) ('f' :: 'a' :: 'l' :: 's' :: 'e' :: r) = some (Json.bool false, r) := by
  rw [parseVal, skipWs_cons_not_ws _ (by decide)]
  simp only []
  rw [if_neg (by decide), if_neg (by decide), if_pos trivial]

theorem parseVal_str (n : Nat) (r : List Char) :
    parseVal (n + 1) ('"' :: r) = (parseStrBody r).map (fun p => (Json.str p.1, p.2)) := by
  rw [parseVal, skipWs_cons_not_ws r (by decide)]
  simp only []
  rw [if_neg (by decide), if_neg (by decide), if_neg (by decide), if_pos trivial]

theorem parseVal_arr (n : Nat) (r : List Char) :
    parseVal (n + 1) ('[' :: r) = (parseElems n r).map (fun p => (Json.arr p.1, p.2)) := by
  rw [parseVal, skipWs_cons_not_ws r (by decide)]
  simp only []
  rw [if_neg (by decide), if_neg (by decide), if_neg (by decide), if_neg (by decide),
    if_pos trivial]

theorem parseVal_obj (n : Nat) (r : List Char) :
    parseVal (n + 1) (lbrace :: r) = (parseMembers n r).map (fun p => (Json.obj p.1, p.2)) := by
  rw [parseVal, skipWs_cons_not_ws r (by decide)]
  simp only []
  rw [if_neg (by decide), if_neg (by decide), if_neg (by decide), if_neg (by decide),
    if_neg (by decide), if_pos trivial]

theorem parseVal_num (n : Nat) {c : Char} (r : List Char) (hw : isWsChar c = false)
    (h1 : c ≠ 'n') (h2 : c ≠ 't') (h3 : c ≠ 'f') (h4 : c ≠ '"') (h5 : c ≠ '[')
    (h6 : c ≠ lbrace) :
    parseVal (n + 1) (c :: r) = parseNum (c :: r) := by
  rw [parseVal, skipWs_cons_not_ws r hw]
  simp only []
  rw [if_neg h1, if_neg h2, if_neg h3, if_neg h4, if_neg h5, if_neg h6]

theorem parseElems_zero (s : List Char) : parseElems 0 s = none := rfl

theorem parseElems_nil (n : Nat) : parseElems (n + 1) [] = parseElemsCont n [] := by
  rw [parseElems]; rfl

theorem parseElems_close (n : Nat) (r : List Char) :
    parseElems (n + 1) (']' :: r) = some (.nil, r) := by
  rw [parseElems, skipWs_cons_not_ws _ (by decide)]
  simp only []
  rw [if_pos trivial]

theorem parseElems_go (n : Nat) {c : Char} (r : List Char) (hw : isWsChar c = false)
    (hc : c ≠ ']') :
    parseElems (n + 1) (c :: r) = parseElemsCont n (c :: r) := by
  rw [parseElems, skipWs_cons_not_ws _ hw]
  simp only []
  rw [if_neg hc]

theorem parseElems_ws (n : Nat) (s : List Char) :
    parseElems n (' ' :: s) = parseElems n s := by
  cases n with
  | zero => rfl
  | succ n => rw [parseElems, parseElems, skipWs_space]

theorem parseElemsCont_zero (s : List Char) : parseElemsCont 0 s = none := rfl

theorem parseElemsCont_eq (n : Nat) (s : List Char) :
    parseElemsCont (n + 1) s =
      match parseVal n s with
      | none => none
      | some (v, r) =>
        match skipWs r with
        | [] => none
        | c :: r2 =>
          if c = ']' then some (.cons v .nil, r2)
          else if c = ',' then
            match parseElemsCont n r2 with
            | none => none
            | some (vs, r3) => some (.cons v vs, r3)
          else none := by
  rw [parseElemsCont]

theorem parseElemsCont_nil (n : Nat) : parseElemsCont n [] = none := by
  cases n with
  | zero => rfl
  | succ n => rw [parseElemsCont_eq, parseVal_nil]

theorem parseMembers_zero (s : List Char) : parseMembers 0 s = none := rfl

theorem parseMembers_nil (n : Nat) : parseMembers (n + 1) [] = parseMembersCont n [] := by
  rw [parseMembers]; rfl

theorem parseMembers_close (n : Nat) (r : List Char) :
    parseMembers (n + 1) (rbrace :: r) = some (.nil, r) := by
  rw [parseMembers, skipWs_cons_not_ws _ (by decide)]
  simp only []
  rw [if_pos trivial]

theorem parseMembers_go (n : Nat) {c : Char} (r : List Char) (hw : isWsChar c = false)
    (hc : c ≠ rbrace) :
    parseMembers (n + 1) (c :: r) = parseMembersCont n (c :: r) := by
  rw [parseMembers, skipWs_cons_not_ws _ hw]
  simp only []
  rw [if_neg hc]

theorem parseMembers_ws (n : Nat) (s : List Char) :
    parseMembers n (' ' :: s) = parseMembers n s := by
  cases n with
  | zero => rfl
  | succ n => rw [parseMembers, parseMembers, skipWs_space]

theorem parseMembersCont_zero (s : List Char) : parseMembersCont 0 s = none := rfl

theorem parseMembersCont_eq (n : Nat) (s : List Char) :
    parseMembersCont (n + 1) s =
      match skipWs s with
      | [] => none
      | q :: r =>
        if q = '"' then
          match parseStrBody r with
          | none => none
          | some (k, r1) =>
            match skipWs r1 with
            | [] => none
            | c1 :: r2 =>
              if c1 = ':' then
                match parseVal n r2 with
                | none => none
                | some (v, r3) =>
                  match skipWs r3 with
                  | [] => none
                  | c :: r4 =>
                    if c = rbrace then some (.cons k v .nil, r4)
                    else if c = ',' then
                      match parseMembersCont n r4 with
                      | none => none
                      | some (ms, r5) => some (.cons k v ms, r5)
                    else none
              else none
        else none := by
  rw [parseMembersCont]

theorem parseMembersCont_nil (n : Nat) : parseMembersCont n [] = none := by
  cases n with
  | zero => rfl
  | succ n => rw [parseMembersCont_eq]; rfl

/-! ### Round trip: helpers -/

/-- Safety condition for the maximal-munch number scan: after a number
value, the input must not continue with a digit or a fraction/exponent
mark.  Inside the encoder's output, values are always followed by `,`,
`]`, the closing brace, or end of input, so the condition always holds
where it is needed.  For non-number values it is vacuous. -/
def numOk : Json → List Char → Bool
  | .num _, rest => noDigitHead rest && !(floatFollows rest)
  | _, _ => true

theorem numOk_boundary {c : Char} (hd : isDigitChar c = false) (h1 : c ≠ '.')
    (h2 : c ≠ 'e') (h3 : c ≠ 'E') (v : Json) (rest : List Char) :
    numOk v (c :: rest) = true := by
  cases v <;> simp [numOk, noDigitHead, floatFollows, hd, h1, h2, h3]

theorem numOk_rsq (v : Json) (rest : List Char) : numOk v (']' :: rest) = true :=
  numOk_boundary (by decide) (by decide) (by decide) (by decide) v rest

theorem numOk_rbrace (v : Json) (rest : List Char) : numOk v (rbrace :: rest) = true :=
  numOk_boundary (by decide) (by decide) (by decide) (by decide) v rest

theorem numOk_comma (v : Json) (rest : List Char) : numOk v (',' :: rest) = true :=
  numOk_boundary (by decide) (by decide) (by decide) (by decide) v rest

theorem encodeInt_head (m : Int) :
    ∃ c t2, encodeInt m = c :: t2 ∧ (c = '-' ∨ isDigitChar c = true) := by
  rw [encodeInt]
  split_ifs with hneg
  · exact ⟨'-', natDigits m.natAbs, rfl, Or.inl rfl⟩
  · rcases Nat.eq_zero_or_pos m.toNat with hz | hp
    · rw [hz]
      exact ⟨'0', [], by rw [natDigits]; rfl, Or.inr (by decide)⟩
    · obtain ⟨c, t, he, hdig, -⟩ := natDigits_head m.toNat hp
      exact ⟨c, t, he, Or.inr hdig⟩

theorem num_head_facts {c : Char} (h : c = '-' ∨ isDigitChar c = true) :
    isWsChar c = false ∧ c ≠ 'n' ∧ c ≠ 't' ∧ c ≠ 'f' ∧ c ≠ '"' ∧ c ≠ '[' ∧
      c ≠ lbrace ∧ c ≠ ']' ∧ c ≠ rbrace := by
  rcases h with h | h
  · subst h
    refine ⟨by decide, by decide, by decide, by decide, by decide, by decide,
      by decide, by decide, by decide⟩
  · simp only [isDigitChar, Bool.and_eq_true, decide_eq_true_eq] at h
    refine ⟨isWsChar_of_digit (by simp [isDigitChar]; omega), ?_, ?_, ?_, ?_, ?_, ?_, ?_, ?_⟩
      <;> apply char_toNat_ne
    · rw [show ('n' : Char).toNat = 110 from rfl]; omega
    · rw [show ('t' : Char).toNat = 116 from rfl]; omega
    · rw [show ('f' : Char).toNat = 102 from rfl]; omega
    · rw [show ('"' : Char).toNat = 34 from rfl]; omega
    · rw [show ('[' : Char).toNat = 91 from rfl]; omega
    · rw [show (lbrace : Char).toNat = 123 from rfl]; omega
    · rw [show (']' : Char).toNat = 93 from rfl]; omega
    · rw [show (rbrace : Char).toNat = 125 from rfl]; omega

/-- Every encoded value starts with a character that is not whitespace and
closes no bracket, so the parser's dispatch looks at the value itself. -/
theorem encodeJson_head (v : Json) :
    ∃ c t2, encodeJson v = c :: t2 ∧ isWsChar c = false ∧ c ≠ ']' ∧ c ≠ rbrace := by
  cases v with
  | num m =>
    obtain ⟨c, t2, he, hc⟩ := encodeInt_head m
    obtain ⟨hw, -, -, -, -, -, -, h8, h9⟩ := num_head_facts hc
    exact ⟨c, t2, by rw [encodeJson, he], hw, h8, h9⟩
  | null => refine ⟨'n', _, rfl, ?_, ?_, ?_⟩ <;> decide
  | bool b =>
    cases b
    · refine ⟨'f', _, rfl, ?_, ?_, ?_⟩ <;> decide
    · refine ⟨'t', _, rfl, ?_, ?_, ?_⟩ <;> decide
  | str s => refine ⟨'"', _, rfl, ?_, ?_, ?_⟩ <;> decide
  | arr xs => refine ⟨'[', _, rfl, ?_, ?_, ?_⟩ <;> decide
  | obj ms => refine ⟨lbrace, _, rfl, ?_, ?_, ?_⟩ <;> decide

mutual
/-- Fuel bound sufficient for the parser on encoder output. -/
def nfuel : Json → Nat
  | .null => 1
  | .bool _ => 1
  | .num _ => 1
  | .str _ => 1
  | .arr xs => 2 + nfuelElemsCont xs
  | .obj ms => 2 + nfuelMembersCont ms

def nfuelElemsCont : JsonList → Nat
  | .nil => 0
  | .cons h .nil => 1 + nfuel h
  | .cons h (.cons w t) => 1 + max (nfuel h) (nfuelElemsCont (.cons w t))

def nfuelMembersCont : JsonMembers → Nat
  | .nil => 0
  | .cons _ v .nil => 1 + nfuel v
  | .cons _ v (.cons k2 v2 t) => 1 + max (nfuel v) (nfuelMembersCont (.cons k2 v2 t))
end

theorem parseElemsCont_ws (n : Nat) (s : List Char) :
    parseElemsCont n (' ' :: s) = parseElemsCont n s := by
  cases n with
  | zero => rfl
  | succ n => rw [parseElemsCont_eq, parseElemsCont_eq, parseVal_ws]

theorem parseMembersCont_ws (n : Nat) (s : List Char) :
    parseMembersCont n (' ' :: s) = parseMembersCont n s := by
  cases n with
  | zero => rfl
  | succ n => rw [parseMembersCont_eq, parseMembersCont_eq, skipWs_space]

theorem encodeJson_null : encodeJson .null = ['n', 'u', 'l', 'l'] := by
  rw [encodeJson]
  rfl

theorem encodeJson_true : encodeJson (.bool true) = ['t', 'r', 'u', 'e'] := by
  rw [encodeJson]
  rfl

theorem encodeJson_false : encodeJson (.bool false) = ['f', 'a', 'l', 's', 'e'] := by
  rw [encodeJson]
  rfl

theorem encodeJson_num (m : Int) : encodeJson (.num m) = encodeInt m := by rw [encodeJson]

theorem encodeJson_str (s : List Char) : encodeJson (.str s) = encodeStr s := by
  rw [encodeJson]

theorem encodeJson_arr (xs : JsonList) :
    encodeJson (.arr xs) = '[' :: encodeElems xs ++ [']'] := by rw [encodeJson]

theorem encodeJson_obj (ms : JsonMembers) :
    encodeJson (.obj ms) = lbrace :: encodeMembers ms ++ [rbrace] := by rw [encodeJson]

theorem encodeElems_nil : encodeElems .nil = [] := by rw [encodeElems]

theorem encodeElems_single (h : Json) : encodeElems (.cons h .nil) = encodeJson h := by
  rw [encodeElems]

theorem encodeElems_more (h w : Json) (t : JsonList) :
    encodeElems (.cons h (.cons w t)) =
      encodeJson h ++ ',' :: ' ' :: encodeElems (.cons w t) := by
  rw [encodeElems]

theorem encodeMembers_nil : encodeMembers .nil = [] := by rw [encodeMembers]

theorem encodeMembers_single (k : List Char) (v : Json) :
    encodeMembers (.cons k v .nil) = encodeStr k ++ ':' :: ' ' :: encodeJson v := by
  rw [encodeMembers]

theorem encodeMembers_more (k : List Char) (v : Json) (k2 : List Char) (v2 : Json)
    (t : JsonMembers) :
    encodeMembers (.cons k v (.cons k2 v2 t)) =
      encodeStr k ++ ':' :: ' ' :: encodeJson v ++
        ',' :: ' ' :: encodeMembers (.cons k2 v2 t) := by
  rw [encodeMembers]

/-! ### Round trip -/

mutual
theorem rt_val : ∀ (v : Json) (n : Nat) (rest : List Char),
    nfuel v ≤ n → numOk v rest = true →
    parseVal n (encodeJson v ++ rest) = some (v, rest)
  | .null, n, rest, hn, _ => by
    obtain ⟨n', rfl⟩ : ∃ n', n = n' + 1 := ⟨n - 1, by simp [nfuel] at hn; omega⟩
    rw [encodeJson_null]
    exact parseVal_null n' rest
  | .bool true, n, rest, hn, _ => by
    obtain ⟨n', rfl⟩ : ∃ n', n = n' + 1 := ⟨n - 1, by simp [nfuel] at hn; omega⟩
    rw [encodeJson_true]
    exact parseVal_true n' rest
  | .bool false, n, rest, hn, _ => by
    obtain ⟨n', rfl⟩ : ∃ n', n = n' + 1 := ⟨n - 1, by simp [nfuel] at hn; omega⟩
    rw [encodeJson_false]
    exact parseVal_false n' rest
  | .num m, n, rest, hn, hok => by
    obtain ⟨n', rfl⟩ : ∃ n', n = n' + 1 := ⟨n - 1, by simp [nfuel] at hn; omega⟩
    obtain ⟨c, t2, he, hc⟩ := encodeInt_head m
    obtain ⟨hw, h1, h2, h3, h4, h5, h6, -, -⟩ := num_head_facts hc
    rw [encodeJson_num, he, List.cons_append, parseVal_num n' _ hw h1 h2 h3 h4 h5 h6,
      ← List.cons_append, ← he]
    simp only [numOk, Bool.and_eq_true, Bool.not_eq_true'] at hok
    exact parseNum_encodeInt m rest hok.1 hok.2
  | .str s, n, rest, hn, _ => by
    obtain ⟨n', rfl⟩ : ∃ n', n = n' + 1 := ⟨n - 1, by simp [nfuel] at hn; omega⟩
    rw [encodeJson_str]
    simp only [encodeStr, List.cons_append, List.append_assoc, List.singleton_append, List.nil_append]
    rw [parseVal_str, parseStrBody_escBody]
    rfl
  | .arr xs, n, rest, hn, _ => by
    obtain ⟨n', rfl⟩ : ∃ n', n = n' + 1 := ⟨n - 1, by simp [nfuel] at hn; omega⟩
    rw [encodeJson_arr]
    simp only [List.cons_append, List.append_assoc, List.singleton_append, List.nil_append]
    rw [parseVal_arr]
    cases xs with
    | nil =>
      obtain ⟨n'', rfl⟩ : ∃ n'', n' = n'' + 1 :=
        ⟨n' - 1, by simp [nfuel, nfuelElemsCont] at hn; omega⟩
      rw [encodeElems_nil, List.nil_append, parseElems_close]
      rfl
    | cons h t =>
      obtain ⟨n'', rfl⟩ : ∃ n'', n' = n'' + 1 :=
        ⟨n' - 1, by simp [nfuel] at hn; omega⟩
      obtain ⟨c, t2, he, hw, hrsq, -⟩ := encodeJson_head h
      have hstart : ∃ tail, encodeElems (.cons h t) ++ ']' :: rest = c :: tail ∧
          c :: tail = encodeElems (.cons h t) ++ ']' :: rest := by
        cases t with
        | nil =>
          rw [encodeElems_single, he]
          exact ⟨_, rfl, rfl⟩
        | cons w t3 =>
          rw [encodeElems_more, he]
          simp only [List.cons_append, List.append_assoc]
          exact ⟨_, rfl, rfl⟩
      obtain ⟨tail, ht1, ht2⟩ := hstart
      rw [ht1, parseElems_go n'' _ hw hrsq, ht2]
      rw [rt_elemsCont h t n'' rest (by simp [nfuel] at hn; omega)]
      rfl
  | .obj ms, n, rest, hn, _ => by
    obtain ⟨n', rfl⟩ : ∃ n', n = n' + 1 := ⟨n - 1, by simp [nfuel] at hn; omega⟩
    rw [encodeJson_obj]
    simp only [List.cons_append, List.append_assoc, List.singleton_append, List.nil_append]
    rw [parseVal_obj]
    cases ms with
    | nil =>
      obtain ⟨n'', rfl⟩ : ∃ n'', n' = n'' + 1 :=
        ⟨n' - 1, by simp [nfuel, nfuelMembersCont] at hn; omega⟩
      rw [encodeMembers_nil, List.nil_append, parseMembers_close]
      rfl
    | cons k v t =>
      obtain ⟨n'', rfl⟩ : ∃ n'', n' = n'' + 1 :=
        ⟨n' - 1, by simp [nfuel] at hn; omega⟩
      have hstart : ∃ tail, encodeMembers (.cons k v t) ++ rbrace :: rest = '"' :: tail ∧
          '"' :: tail = encodeMembers (.cons k v t) ++ rbrace :: rest := by
        cases t with
        | nil =>
          rw [encodeMembers_single]
          simp only [encodeStr, List.cons_append, List.append_assoc]
          exact ⟨_, rfl, rfl⟩
        | cons k2 v2 t3 =>
          rw [encodeMembers_more]
          simp only [encodeStr, List.cons_append, List.append_assoc]
          exact ⟨_, rfl, rfl⟩
      obtain ⟨tail, ht1, ht2⟩ := hstart
      rw [ht1, parseMembers_go n'' _ (by decide) (by decide), ht2]
      rw [rt_membersCont k v t n'' rest (by simp [nfuel] at hn; omega)]
      rfl
termination_by v _ _ _ _ => sizeOf v

theorem rt_elemsCont : ∀ (h : Json) (t : JsonList) (n : Nat) (rest : List Char),
    nfuelElemsCont (.cons h t) ≤ n →
    parseElemsCont n (encodeElems (.cons h t) ++ ']' :: rest) = some (.cons h t, rest)
  | h, t, n, rest, hn => by
    obtain ⟨n', rfl⟩ : ∃ n', n = n' + 1 :=
      ⟨n - 1, by cases t <;> simp [nfuelElemsCont] at hn <;> omega⟩
    rw [parseElemsCont_eq]
    cases t with
    | nil =>
      rw [encodeElems_single]
      rw [rt_val h n' (']' :: rest) (by simp [nfuelElemsCont] at hn; omega)
        (numOk_rsq h _)]
      simp only []
      rw [skipWs_cons_not_ws _ (by decide)]
      simp only []
      rw [if_pos trivial]
    | cons w t2 =>
      rw [encodeElems_more]
      simp only [List.cons_append, List.append_assoc]
      rw [rt_val h n' _ (by simp [nfuelElemsCont] at hn; omega) (numOk_comma h _)]
      simp only []
      rw [skipWs_cons_not_ws _ (by decide)]
      simp only []
      rw [if_neg (by decide), if_pos trivial]
      rw [parseElemsCont_ws]
      rw [rt_elemsCont w t2 n' rest (by simp [nfuelElemsCont] at hn; omega)]
termination_by h t _ _ _ => sizeOf (JsonList.cons h t)

theorem rt_membersCont : ∀ (k : List Char) (v : Json) (t : JsonMembers) (n : Nat)
    (rest : List Char),
    nfuelMembersCont (.cons k v t) ≤ n →
    parseMembersCont n (encodeMembers (.cons k v t) ++ rbrace :: rest)
      = some (.cons k v t, rest)
  | k, v, t, n, rest, hn => by
    obtain ⟨n', rfl⟩ : ∃ n', n = n' + 1 :=
      ⟨n - 1, by cases t <;> simp [nfuelMembersCont] at hn <;> omega⟩
    rw [parseMembersCont_eq]
    cases t with
    | nil =>
      rw [encodeMembers_single]
      simp only [encodeStr, List.cons_append, List.append_assoc, List.singleton_append, List.nil_append]
      rw [skipWs_cons_not_ws _ (by decide)]
      simp only []
      rw [if_pos trivial]
      rw [parseStrBody_escBody]
      simp only []
      rw [skipWs_cons_not_ws _ (by decide)]
      simp only []
      rw [if_pos trivial]
      rw [parseVal_ws]
      rw [rt_val v n' (rbrace :: rest) (by simp [nfuelMembersCont] at hn; omega)
        (numOk_rbrace v _)]
      simp only []
      rw [skipWs_cons_not_ws _ (by decide)]
      simp only []
      rw [if_pos trivial]
    | cons k2 v2 t2 =>
      rw [encodeMembers_more]
      simp only [encodeStr, List.cons_append, List.append_assoc, List.singleton_append, List.nil_append]
      rw [skipWs_cons_not_ws _ (by decide)]
      simp only []
      rw [if_pos trivial]
      rw [parseStrBody_escBody]
      simp only []
      rw [skipWs_cons_not_ws _ (by decide)]
      simp only []
      rw [if_pos trivial]
      rw [parseVal_ws]
      rw [rt_val v n' _ (by simp [nfuelMembersCont] at hn; omega) (numOk_comma v _)]
      simp only []
      rw [skipWs_cons_not_ws _ (by decide)]
      simp only []
      rw [if_neg (by decide), if_pos trivial]
      rw [parseMembersCont_ws]
      rw [rt_membersCont k2 v2 t2 n' rest (by simp [nfuelMembersCont] at hn; omega)]
termination_by k v t _ _ _ => sizeOf (JsonMembers.cons k v t)
end


theorem parse_fuel_mono : ∀ n : Nat,
    (∀ m s r, n ≤ m → parseVal n s = some r → parseVal m s = some r) ∧
    (∀ m s r, n ≤ m → parseElems n s = some r → parseElems m s = some r) ∧
    (∀ m s r, n ≤ m → parseElemsCont n s = some r → parseElemsCont m s = some r) ∧
    (∀ m s r, n ≤ m → parseMembers n s = some r → parseMembers m s = some r) ∧
    (∀ m s r, n ≤ m → parseMembersCont n s = some r → parseMembersCont m s = some r) := by
  intro n
  induction n with
  | zero =>
    refine ⟨?_, ?_, ?_, ?_, ?_⟩ <;> intro m s r _ h <;> simp [parseVal_zero,
      parseElems_zero, parseElemsCont_zero, parseMembers_zero, parseMembersCont_zero] at h
  | succ n ih =>
    obtain ⟨ihV, ihE, ihEC, ihM, ihMC⟩ := ih
    refine ⟨?_, ?_, ?_, ?_, ?_⟩ <;> intro m s r hm h <;>
      obtain ⟨m', rfl⟩ : ∃ m', m = m' + 1 := ⟨m - 1, by omega⟩ <;>
      have hm' : n ≤ m' := by omega
    -- parseVal
    · rw [parseVal] at h ⊢
      cases hs : skipWs s with
      | nil =>
        try rw [hs] at h
        exact absurd h (by simp)
      | cons c cr =>
        try rw [hs] at h
        try rw [hs]
        try simp only at h
        try simp only
        split_ifs at h ⊢ <;> try exact h
        · rcases Option.map_eq_some'.mp h with ⟨p, hp, hr⟩
          rw [ihE m' cr p hm' hp]
          simp [hr]
        · rcases Option.map_eq_some'.mp h with ⟨p, hp, hr⟩
          rw [ihM m' cr p hm' hp]
          simp [hr]
    -- parseElems
    · rw [parseElems] at h ⊢
      cases hs : skipWs s with
      | nil =>
        try rw [hs] at h
        try rw [hs]
        exact ihEC m' [] r hm' h
      | cons c cr =>
        try rw [hs] at h
        try rw [hs]
        try simp only at h
        try simp only
        split_ifs at h ⊢
        · exact h
        · exact ihEC m' (c :: cr) r hm' h
    -- parseElemsCont
    · rw [parseElemsCont_eq] at h ⊢
      cases hv : parseVal n s with
      | none =>
        try rw [hv] at h
        exact absurd h (by simp)
      | some p =>
        obtain ⟨v, rr⟩ := p
        try rw [hv] at h
        rw [ihV m' s (v, rr) hm' hv]
        try simp only at h
        try simp only
        cases hsk : skipWs rr with
        | nil =>
          try rw [hsk] at h
          exact absurd h (by simp)
        | cons c cr =>
          try rw [hsk] at h
          try rw [hsk]
          try simp only at h
          try simp only
          split_ifs at h ⊢
          · exact h
          · cases hec : parseElemsCont n cr with
            | none =>
              try rw [hec] at h
              exact absurd h (by simp)
            | some q =>
              obtain ⟨vs, r3⟩ := q
              try rw [hec] at h
              rw [ihEC m' cr (vs, r3) hm' hec]
              exact h
    -- parseMembers
    · rw [parseMembers] at h ⊢
      cases hs : skipWs s with
      | nil =>
        try rw [hs] at h
        try rw [hs]
        exact ihMC m' [] r hm' h
      | cons c cr =>
        try rw [hs] at h
        try rw [hs]
        try simp only at h
        try simp only
        split_ifs at h ⊢
        · exact h
        · exact ihMC m' (c :: cr) r hm' h
    -- parseMembersCont
    · rw [parseMembersCont_eq] at h ⊢
      cases hs : skipWs s with
      | nil =>
        try rw [hs] at h
        exact absurd h (by simp)
      | cons q qr =>
        try rw [hs] at h
        try rw [hs]
        try simp only at h
        try simp only
        split_ifs at h ⊢
        case pos =>
          cases hsb : parseStrBody qr with
          | none =>
            try rw [hsb] at h
            exact absurd h (by simp)
          | some kp =>
            obtain ⟨k, r1⟩ := kp
            try rw [hsb] at h
            try rw [hsb]
            try simp only at h
            try simp only
            cases hs1 : skipWs r1 with
            | nil =>
              try rw [hs1] at h
              exact absurd h (by simp)
            | cons c1 r2 =>
              try rw [hs1] at h
              try rw [hs1]
              try simp only at h
              try simp only
              split_ifs at h ⊢
              case pos =>
                cases hv : parseVal n r2 with
                | none =>
                  try rw [hv] at h
                  exact absurd h (by simp)
                | some p =>
                  obtain ⟨v, r3⟩ := p
                  try rw [hv] at h
                  rw [ihV m' r2 (v, r3) hm' hv]
                  try simp only at h
                  try simp only
                  cases hs3 : skipWs r3 with
                  | nil =>
                    try rw [hs3] at h
                    exact absurd h (by simp)
                  | cons c r4 =>
                    try rw [hs3] at h
                    try rw [hs3]
                    try simp only at h
                    try simp only
                    split_ifs at h ⊢
                    · exact h
                    · cases hmc : parseMembersCont n r4 with
                      | none =>
                        try rw [hmc] at h
                        exact absurd h (by simp)
                      | some q2 =>
                        obtain ⟨ms, r5⟩ := q2
                        try rw [hmc] at h
                        rw [ihMC m' r4 (ms, r5) hm' hmc]
                        exact h
theorem numOk_nil (v : Json) : numOk v [] = true := by
  cases v <;> simp [numOk, noDigitHead, floatFollows]

/-- Determinism on encoder output: whatever the fuel, a successful parse of
an encoded value (with a digit-safe continuation) yields exactly that value
and continuation. -/
theorem det_val (v : Json) (n : Nat) (rest : List Char) (hok : numOk v rest = true)
    {r : Json × List Char} (h : parseVal n (encodeJson v ++ rest) = some r) :
    r = (v, rest) := by
  have h2 := (parse_fuel_mono n).1 (max n (nfuel v)) _ _ (Nat.le_max_left _ _) h
  have h3 := rt_val v (max n (nfuel v)) rest (Nat.le_max_right _ _) hok
  rw [h2] at h3
  exact Option.some.inj h3

/-- A run of decimal digits is munched in full. -/
theorem munchDigits_all :
    ∀ (ds : List Char), (∀ c ∈ ds, isDigitChar c = true) → ∀ acc : Nat,
      ∃ a, munchDigits acc ds = (a, []) := by
  intro ds
  induction ds with
  | nil => exact fun _ acc => ⟨acc, rfl⟩
  | cons c t ih =>
    intro hall acc
    have hc : isDigitChar c = true := hall c (List.mem_cons_self ..)
    rw [munchDigits, if_pos hc]
    exact ih (fun d hd => hall d (List.mem_cons_of_mem _ hd)) _

/-- Number values, the only values whose encoding has parsable strict
prefixes. -/
def isNum : Json → Bool
  | .num _ => true
  | _ => false

theorem parseElems_nil_input (n : Nat) : parseElems n [] = none := by
  cases n with
  | zero => rfl
  | succ n => rw [parseElems_nil, parseElemsCont_nil]

theorem parseMembers_nil_input (n : Nat) : parseMembers n [] = none := by
  cases n with
  | zero => rfl
  | succ n => rw [parseMembers_nil, parseMembersCont_nil]

/-! ### Prefix failure -/

theorem parseNum_nil : parseNum [] = none := rfl

/-- Strict prefixes of an encoded integer: either nothing parses (empty or
bare minus sign) or the digit scan munches the whole prefix, succeeding
with empty remainder. -/
theorem pfx_num (m : Int) :
    ∀ p s2 : List Char, encodeInt m = p ++ s2 → s2 ≠ [] →
      parseNum p = none ∨ ∃ a : Int, parseNum p = some (.num a, []) := by
  intro p s2 he hne
  rw [encodeInt] at he
  split_ifs at he with hneg
  · match p with
    | [] => exact Or.inl parseNum_nil
    | d1 :: p1 =>
      rw [List.cons_append] at he
      injection he with ha hb
      subst ha
      rw [parseNum]
      rw [if_pos rfl]
      match p1 with
      | [] => exact Or.inl rfl
      | d :: p2 =>
        obtain ⟨c, t, hD, hdig, hz⟩ := natDigits_head m.natAbs (by omega)
        rw [hD, List.cons_append] at hb
        injection hb with hc hd
        subst hc
        have hall : ∀ x ∈ c :: p2, isDigitChar x = true := by
          intro x hx
          apply natDigits_all_digits m.natAbs
          rw [hD]
          rcases List.mem_cons.mp hx with hx | hx
          · exact hx ▸ List.mem_cons_self ..
          · exact List.mem_cons_of_mem _ (hd ▸ List.mem_append_left _ hx)
        rw [parseUInt, if_neg hz, if_pos (hall c (List.mem_cons_self ..))]
        obtain ⟨a, hmu⟩ := munchDigits_all (c :: p2) hall 0
        rw [hmu]
        simp only []
        exact Or.inr ⟨-(a : Int), by rw [show floatFollows [] = false from rfl]; simp⟩
  · match p with
    | [] => exact Or.inl parseNum_nil
    | d1 :: p1 =>
      rcases Nat.eq_zero_or_pos m.toNat with hz0 | hp0
      · rw [hz0, show natDigits 0 = ['0'] by rw [natDigits]; rfl] at he
        rw [List.cons_append] at he
        injection he with ha hb
        have : s2 = [] := by
          cases p1 with
          | nil => simpa using hb.symm
          | cons z zs => simp at hb
        exact absurd this hne
      · obtain ⟨c, t, hD, hdig, hz⟩ := natDigits_head m.toNat hp0
        rw [hD, List.cons_append] at he
        injection he with ha hb
        subst ha
        have hall : ∀ x ∈ c :: p1, isDigitChar x = true := by
          intro x hx
          apply natDigits_all_digits m.toNat
          rw [hD]
          rcases List.mem_cons.mp hx with hx | hx
          · exact hx ▸ List.mem_cons_self ..
          · exact List.mem_cons_of_mem _ (hb ▸ List.mem_append_left _ hx)
        have hdm : c ≠ '-' := by
          apply char_toNat_ne
          have := hall c (List.mem_cons_self ..)
          simp only [isDigitChar, Bool.and_eq_true, decide_eq_true_eq] at this
          rw [show ('-' : Char).toNat = 45 from rfl]
          omega
        rw [parseNum]
        rw [if_neg hdm]
        rw [parseUInt, if_neg hz, if_pos (hall c (List.mem_cons_self ..))]
        obtain ⟨a, hmu⟩ := munchDigits_all (c :: p1) hall 0
        rw [hmu]
        simp only []
        exact Or.inr ⟨(a : Int), by rw [show floatFollows [] = false from rfl]; simp⟩


theorem encodeStr_cons (s : List Char) :
    encodeStr s = '"' :: (escBody s ++ ['"']) := by
  rw [encodeStr, List.cons_append]

theorem encodeElems_cons_expose (h : Json) (t : JsonList) :
    ∃ tail, encodeElems (.cons h t) = encodeJson h ++ tail := by
  cases t with
  | nil => exact ⟨[], by rw [encodeElems_single, List.append_nil]⟩
  | cons w t2 => exact ⟨_, by rw [encodeElems_more]⟩

theorem encodeMembers_cons_expose (k : List Char) (v : Json) (t : JsonMembers) :
    ∃ tail, encodeMembers (.cons k v t) = encodeStr k ++ tail := by
  cases t with
  | nil =>
    refine ⟨':' :: ' ' :: encodeJson v, ?_⟩
    rw [encodeMembers_single]
  | cons k2 v2 t2 =>
    refine ⟨(':' :: ' ' :: encodeJson v) ++ (',' :: ' ' :: encodeMembers (.cons k2 v2 t2)), ?_⟩
    rw [encodeMembers_more, List.append_assoc]

/-- On encoder output with a digit-safe continuation, the value parser
either fails or returns exactly the encoded value. -/
theorem parseVal_encode_cases (h : Json) (n : Nat) (a2 : List Char)
    (hok : numOk h a2 = true) :
    parseVal n (encodeJson h ++ a2) = none ∨
      parseVal n (encodeJson h ++ a2) = some (h, a2) := by
  cases hout : parseVal n (encodeJson h ++ a2) with
  | none => exact Or.inl rfl
  | some r => exact Or.inr (by rw [det_val h n a2 hok hout])

mutual
/-- A strict prefix of an encoded value either fails to parse at any fuel,
or (numbers only) parses as a shorter number consuming the whole prefix. -/
theorem pfx_val : ∀ (v : Json) (p s2 : List Char) (n : Nat),
    encodeJson v = p ++ s2 → s2 ≠ [] →
    parseVal n p = none ∨ (isNum v = true ∧ ∃ x, parseVal n p = some (x, []))
  | .null, p, s2, n, he, hne => by
    rw [encodeJson_null] at he
    left
    match p with
    | [] => exact parseVal_nil n
    | c0 :: p1 =>
      rw [List.cons_append] at he
      injection he with ha hb
      subst ha
      cases n with
      | zero => exact parseVal_zero _
      | succ n' =>
        rw [parseVal, skipWs_cons_not_ws _ (by decide)]
        simp only []
        rw [if_pos trivial]
        match p1 with
        | [] => rfl
        | a :: p2 =>
          injection hb with hc hd
          subst hc
          match p2 with
          | [] => rfl
          | b :: p3 =>
            injection hd with hf hg
            subst hf
            match p3 with
            | [] => rfl
            | c :: p4 =>
              injection hg with hi hj
              have hc2 : s2 = [] := by
                cases p4 with
                | nil => simpa using hj.symm
                | cons z zs => simp at hj
              exact absurd hc2 hne
  | .bool true, p, s2, n, he, hne => by
    rw [encodeJson_true] at he
    left
    match p with
    | [] => exact parseVal_nil n
    | c0 :: p1 =>
      rw [List.cons_append] at he
      injection he with ha hb
      subst ha
      cases n with
      | zero => exact parseVal_zero _
      | succ n' =>
        rw [parseVal, skipWs_cons_not_ws _ (by decide)]
        simp only []
        rw [if_neg (by decide), if_pos trivial]
        match p1 with
        | [] => rfl
        | a :: p2 =>
          injection hb with hc hd
          subst hc
          match p2 with
          | [] => rfl
          | b :: p3 =>
            injection hd with hf hg
            subst hf
            match p3 with
            | [] => rfl
            | c :: p4 =>
              injection hg with hi hj
              have hc2 : s2 = [] := by
                cases p4 with
                | nil => simpa using hj.symm
                | cons z zs => simp at hj
              exact absurd hc2 hne
  | .bool false, p, s2, n, he, hne => by
    rw [encodeJson_false] at he
    left
    match p with
    | [] => exact parseVal_nil n
    | c0 :: p1 =>
      rw [List.cons_append] at he
      injection he with ha hb
      subst ha
      cases n with
      | zero => exact parseVal_zero _
      | succ n' =>
        rw [parseVal, skipWs_cons_not_ws _ (by decide)]
        simp only []
        rw [if_neg (by decide), if_neg (by decide), if_pos trivial]
        match p1 with
        | [] => rfl
        | a :: p2 =>
          injection hb with hc hd
          subst hc
          match p2 with
          | [] => rfl
          | b :: p3 =>
            injection hd with hf hg
            subst hf
            match p3 with
            | [] => rfl
            | c :: p4 =>
              injection hg with hi hj
              subst hi
              match p4 with
              | [] => rfl
              | d :: p5 =>
                injection hj with hk hl
                have hc2 : s2 = [] := by
                  cases p5 with
                  | nil => simpa using hl.symm
                  | cons z zs => simp at hl
                exact absurd hc2 hne
  | .num m, p, s2, n, he, hne => by
    rw [encodeJson_num] at he
    cases n with
    | zero => exact Or.inl (parseVal_zero _)
    | succ n' =>
      match p with
      | [] => exact Or.inl (parseVal_nil _)
      | c0 :: p1 =>
        obtain ⟨ch, t2, hE, hc⟩ := encodeInt_head m
        have he2 := he
        rw [hE, List.cons_append] at he2
        injection he2 with ha hb
        subst ha
        obtain ⟨hw, h1, h2, h3, h4, h5, h6, -, -⟩ := num_head_facts hc
        rw [parseVal_num n' _ hw h1 h2 h3 h4 h5 h6]
        rcases pfx_num m (ch :: p1) s2 he hne with hnone | ⟨a, ha2⟩
        · exact Or.inl hnone
        · exact Or.inr ⟨rfl, .num a, ha2⟩
  | .str s, p, s2, n, he, hne => by
    rw [encodeJson_str] at he
    left
    cases n with
    | zero => exact parseVal_zero _
    | succ n' =>
      match p with
      | [] => exact parseVal_nil _
      | c0 :: p1 =>
        rw [encodeStr_cons, List.cons_append] at he
        injection he with ha hb
        subst ha
        rw [parseVal_str, parseStrBody_pfx_fail s p1 s2 hb hne]
        rfl
  | .arr xs, p, s2, n, he, hne => by
    rw [encodeJson_arr] at he
    left
    cases n with
    | zero => exact parseVal_zero _
    | succ n' =>
      match p with
      | [] => exact parseVal_nil _
      | c0 :: p1 =>
        rw [List.cons_append] at he
        injection he with ha hb
        subst ha
        rw [parseVal_arr]
        have hE : parseElems n' p1 = none := by
          cases xs with
          | nil =>
            rw [encodeElems_nil, List.nil_append] at hb
            match p1 with
            | [] => exact parseElems_nil_input n'
            | z :: p2 =>
              injection hb with hz hzz
              have hc2 : s2 = [] := by
                cases p2 with
                | nil => simpa using hzz.symm
                | cons y ys => simp at hzz
              exact absurd hc2 hne
          | cons h t =>
            cases n' with
            | zero => exact parseElems_zero _
            | succ n2 =>
              match p1 with
              | [] => exact parseElems_nil_input _
              | c1 :: p2 =>
                obtain ⟨ch, t2, hH, hwH, hneH, -⟩ := encodeJson_head h
                obtain ⟨tail, hexp⟩ := encodeElems_cons_expose h t
                have hb2 := hb
                rw [hexp, List.append_assoc, hH, List.cons_append] at hb2
                injection hb2 with hg1 hg2
                subst hg1
                rw [parseElems_go n2 p2 hwH hneH]
                exact pfx_elemsCont h t (ch :: p2) s2 n2 hb hne
        rw [hE]
        rfl
  | .obj ms, p, s2, n, he, hne => by
    rw [encodeJson_obj] at he
    left
    cases n with
    | zero => exact parseVal_zero _
    | succ n' =>
      match p with
      | [] => exact parseVal_nil _
      | c0 :: p1 =>
        rw [List.cons_append] at he
        injection he with ha hb
        subst ha
        rw [parseVal_obj]
        have hM : parseMembers n' p1 = none := by
          cases ms with
          | nil =>
            rw [encodeMembers_nil, List.nil_append] at hb
            match p1 with
            | [] => exact parseMembers_nil_input n'
            | z :: p2 =>
              injection hb with hz hzz
              have hc2 : s2 = [] := by
                cases p2 with
                | nil => simpa using hzz.symm
                | cons y ys => simp at hzz
              exact absurd hc2 hne
          | cons k v t =>
            cases n' with
            | zero => exact parseMembers_zero _
            | succ n2 =>
              match p1 with
              | [] => exact parseMembers_nil_input _
              | c1 :: p2 =>
                obtain ⟨tail, hexp⟩ := encodeMembers_cons_expose k v t
                have hb2 := hb
                rw [hexp, encodeStr_cons, List.cons_append, List.cons_append] at hb2
                injection hb2 with hg1 hg2
                subst hg1
                rw [parseMembers_go n2 p2 (by decide) (by decide)]
                exact pfx_membersCont k v t ('"' :: p2) s2 n2 hb hne
        rw [hM]
        rfl
termination_by v _ _ _ _ _ => sizeOf v

/-- A strict prefix of the encoded tail of a non-empty array (elements plus
the closing bracket) never parses as an element continuation. -/
theorem pfx_elemsCont : ∀ (h : Json) (t : JsonList) (p s2 : List Char) (n : Nat),
    encodeElems (.cons h t) ++ [']'] = p ++ s2 → s2 ≠ [] →
    parseElemsCont n p = none
  | h, t, p, s2, n, he, hne => by
    cases n with
    | zero => exact parseElemsCont_zero p
    | succ n' =>
      rw [parseElemsCont_eq]
      cases t with
      | nil =>
        rw [encodeElems_single] at he
        rcases List.append_eq_append_iff.mp he with ⟨a2, hA, hB⟩ | ⟨c2, hC, hD⟩
        · subst hA
          match a2, hB with
          | [], hB =>
            rcases parseVal_encode_cases h n' [] (numOk_nil h) with hout | hout
            all_goals rw [hout]
            all_goals try rfl
          | z :: a3, hB =>
            injection hB with hz hzz
            have hc2 : s2 = [] := by
              cases a3 with
              | nil => simpa using hzz.symm
              | cons y ys => simp at hzz
            exact absurd hc2 hne
        · rcases eq_or_ne c2 [] with hc2 | hc2
          · subst hc2
            rw [List.append_nil] at hC
            subst hC
            rcases parseVal_encode_cases h n' [] (numOk_nil h) with hout | hout <;>
              rw [List.append_nil] at hout
            all_goals rw [hout]
            all_goals try rfl
          · rcases pfx_val h p c2 n' hC hc2 with hout | ⟨-, x, hout⟩
            all_goals rw [hout]
            all_goals try rfl
      | cons w t2 =>
        rw [encodeElems_more, List.append_assoc] at he
        rcases List.append_eq_append_iff.mp he with ⟨a2, hA, hB⟩ | ⟨c2, hC, hD⟩
        · subst hA
          simp only [List.cons_append] at hB
          match a2, hB with
          | [], hB =>
            rcases parseVal_encode_cases h n' [] (numOk_nil h) with hout | hout
            all_goals rw [hout]
            all_goals try rfl
          | z :: a3, hB =>
            injection hB with hz hzz
            subst hz
            rcases parseVal_encode_cases h n' (',' :: a3) (numOk_comma h _) with hout | hout
            · rw [hout]
            · rw [hout]
              simp only []
              rw [skipWs_cons_not_ws _ (by decide)]
              simp only []
              rw [if_neg (by decide), if_pos trivial]
              have hEC : parseElemsCont n' a3 = none := by
                match a3, hzz with
                | [], _ => exact parseElemsCont_nil n'
                | y :: a4, hzz =>
                  injection hzz with hy hyy
                  subst hy
                  rw [parseElemsCont_ws]
                  exact pfx_elemsCont w t2 a4 s2 n' hyy hne
              rw [hEC]
        · rcases eq_or_ne c2 [] with hc2 | hc2
          · subst hc2
            rw [List.append_nil] at hC
            subst hC
            rcases parseVal_encode_cases h n' [] (numOk_nil h) with hout | hout <;>
              rw [List.append_nil] at hout
            all_goals rw [hout]
            all_goals try rfl
          · rcases pfx_val h p c2 n' hC hc2 with hout | ⟨-, x, hout⟩
            all_goals rw [hout]
            all_goals try rfl
termination_by h t _ _ _ _ _ => sizeOf (JsonList.cons h t)

/-- A strict prefix of the encoded tail of a non-empty object (members plus
the closing brace) never parses as a member continuation. -/
theorem pfx_membersCont : ∀ (k : List Char) (v : Json) (t : JsonMembers)
    (p s2 : List Char) (n : Nat),
    encodeMembers (.cons k v t) ++ [rbrace] = p ++ s2 → s2 ≠ [] →
    parseMembersCont n p = none
  | k, v, t, p, s2, n, he, hne => by
    cases n with
    | zero => exact parseMembersCont_zero p
    | succ n' =>
      rw [parseMembersCont_eq]
      cases t with
      | nil =>
        rw [encodeMembers_single, List.append_assoc, encodeStr_cons,
          List.cons_append] at he
        match p, he with
        | [], _ => rfl
        | c0 :: p1, he =>
          injection he with ha hb
          subst ha
          rw [skipWs_cons_not_ws _ (by decide)]
          simp only []
          rw [if_pos trivial]
          simp only [List.cons_append] at hb
          rcases List.append_eq_append_iff.mp hb with ⟨a2, hA, hB⟩ | ⟨c2, hC, hD⟩
          · subst hA
            rw [List.append_assoc, List.singleton_append, parseStrBody_escBody]
            simp only []
            match a2, hB with
            | [], _ => rfl
            | z :: a3, hB =>
              injection hB with hz hzz
              subst hz
              rw [skipWs_cons_not_ws _ (by decide)]
              simp only []
              rw [if_pos trivial]
              match a3, hzz with
              | [], _ => rw [parseVal_nil]
              | y :: a4, hzz =>
                injection hzz with hy hyy
                subst hy
                rw [parseVal_ws]
                rcases List.append_eq_append_iff.mp hyy with ⟨b2, hB2, hB3⟩ | ⟨d2, hD2, hD3⟩
                · subst hB2
                  match b2, hB3 with
                  | [], _ =>
                    rcases parseVal_encode_cases v n' [] (numOk_nil v) with hout | hout
                    all_goals rw [hout]
                    all_goals try rfl
                  | z2 :: b3, hB3 =>
                    injection hB3 with hz2 hzz2
                    have hc2 : s2 = [] := by
                      cases b3 with
                      | nil => simpa using hzz2.symm
                      | cons u us => simp at hzz2
                    exact absurd hc2 hne
                · rcases eq_or_ne d2 [] with hd | hd
                  · subst hd
                    rw [List.append_nil] at hD2
                    subst hD2
                    rcases parseVal_encode_cases v n' [] (numOk_nil v) with hout | hout <;>
                      rw [List.append_nil] at hout
                    all_goals rw [hout]
                    all_goals try rfl
                  · rcases pfx_val v a4 d2 n' hD2 hd with hout | ⟨-, x, hout⟩
                    all_goals rw [hout]
                    all_goals try rfl
          · rcases eq_or_ne c2 [] with hc2 | hc2
            · subst hc2
              rw [List.append_nil] at hC
              subst hC
              rw [parseStrBody_escBody]
              try rfl
            · rw [parseStrBody_pfx_fail k p1 c2 hC hc2]
      | cons k2 v2 t2 =>
        rw [encodeMembers_more, List.append_assoc, List.append_assoc, encodeStr_cons,
          List.cons_append] at he
        match p, he with
        | [], _ => rfl
        | c0 :: p1, he =>
          injection he with ha hb
          subst ha
          rw [skipWs_cons_not_ws _ (by decide)]
          simp only []
          rw [if_pos trivial]
          simp only [List.cons_append] at hb
          rcases List.append_eq_append_iff.mp hb with ⟨a2, hA, hB⟩ | ⟨c2, hC, hD⟩
          · subst hA
            rw [List.append_assoc, List.singleton_append, parseStrBody_escBody]
            simp only []
            match a2, hB with
            | [], _ => rfl
            | z :: a3, hB =>
              injection hB with hz hzz
              subst hz
              rw [skipWs_cons_not_ws _ (by decide)]
              simp only []
              rw [if_pos trivial]
              match a3, hzz with
              | [], _ => rw [parseVal_nil]
              | y :: a4, hzz =>
                injection hzz with hy hyy
                subst hy
                rw [parseVal_ws]
                rcases List.append_eq_append_iff.mp hyy with ⟨b2, hB2, hB3⟩ | ⟨d2, hD2, hD3⟩
                · subst hB2
                  match b2, hB3 with
                  | [], _ =>
                    rcases parseVal_encode_cases v n' [] (numOk_nil v) with hout | hout
                    all_goals rw [hout]
                    all_goals try rfl
                  | z2 :: b3, hB3 =>
                    injection hB3 with hz2 hzz2
                    subst hz2
                    rcases parseVal_encode_cases v n' (',' :: b3) (numOk_comma v _)
                      with hout | hout
                    · rw [hout]
                    · rw [hout]
                      simp only []
                      rw [skipWs_cons_not_ws _ (by decide)]
                      simp only []
                      rw [if_neg (by decide), if_pos trivial]
                      have hMC : parseMembersCont n' b3 = none := by
                        match b3, hzz2 with
                        | [], _ => exact parseMembersCont_nil n'
                        | u :: b4, hzz2 =>
                          injection hzz2 with hu huu
                          subst hu
                          rw [parseMembersCont_ws]
                          exact pfx_membersCont k2 v2 t2 b4 s2 n' huu hne
                      rw [hMC]
                · rcases eq_or_ne d2 [] with hd | hd
                  · subst hd
                    rw [List.append_nil] at hD2
                    subst hD2
                    rcases parseVal_encode_cases v n' [] (numOk_nil v) with hout | hout <;>
                      rw [List.append_nil] at hout
                    all_goals rw [hout]
                    all_goals try rfl
                  · rcases pfx_val v a4 d2 n' hD2 hd with hout | ⟨-, x, hout⟩
                    all_goals rw [hout]
                    all_goals try rfl
          · rcases eq_or_ne c2 [] with hc2 | hc2
            · subst hc2
              rw [List.append_nil] at hC
              subst hC
              rw [parseStrBody_escBody]
              try rfl
            · rw [parseStrBody_pfx_fail k p1 c2 hC hc2]
termination_by k v t _ _ _ _ _ => sizeOf (JsonMembers.cons k v t)
end


/-! ### Fuel bound against input length, and json.loads -/

mutual
/-- The fuel needed to parse an encoded value is at most twice its length. -/
theorem nfuel_le : ∀ v : Json, nfuel v ≤ 2 * (encodeJson v).length
  | .null => by rw [encodeJson_null]; simp [nfuel]
  | .bool b => by cases b <;> simp [nfuel, encodeJson_true, encodeJson_false]
  | .num m => by
    rw [encodeJson_num]
    obtain ⟨c, t2, hE, -⟩ := encodeInt_head m
    rw [hE]
    simp [nfuel]
    omega
  | .str s => by
    rw [encodeJson_str, encodeStr_cons]
    simp [nfuel]
    omega
  | .arr xs => by
    have h1 := nfuelElemsCont_le xs
    rw [encodeJson_arr]
    simp only [nfuel, List.length_append, List.length_cons]
    omega
  | .obj ms => by
    have h1 := nfuelMembersCont_le ms
    rw [encodeJson_obj]
    simp only [nfuel, List.length_append, List.length_cons]
    omega

theorem nfuelElemsCont_le : ∀ t : JsonList,
    nfuelElemsCont t ≤ 2 * (encodeElems t).length + 2
  | .nil => by simp [nfuelElemsCont, encodeElems_nil]
  | .cons h .nil => by
    have h1 := nfuel_le h
    simp only [nfuelElemsCont]
    rw [encodeElems_single]
    omega
  | .cons h (.cons w t) => by
    have h1 := nfuel_le h
    have h2 := nfuelElemsCont_le (.cons w t)
    simp only [nfuelElemsCont]
    rw [encodeElems_more]
    simp only [List.length_append, List.length_cons]
    omega

theorem nfuelMembersCont_le : ∀ t : JsonMembers,
    nfuelMembersCont t ≤ 2 * (encodeMembers t).length + 2
  | .nil => by simp [nfuelMembersCont, encodeMembers_nil]
  | .cons k v .nil => by
    have h1 := nfuel_le v
    simp only [nfuelMembersCont]
    rw [encodeMembers_single]
    simp only [List.length_append, List.length_cons]
    omega
  | .cons k v (.cons k2 v2 t) => by
    have h1 := nfuel_le v
    have h2 := nfuelMembersCont_le (.cons k2 v2 t)
    simp only [nfuelMembersCont]
    rw [encodeMembers_more]
    simp only [List.length_append, List.length_cons]
    omega
end

theorem numOk_not_num (v : Json) (hnum : isNum v = false) (rest : List Char) :
    numOk v rest = true := by
  cases v <;> first | rfl | simp [isNum] at hnum

/-- `json.loads` of a dumped value returns exactly that value. -/
theorem jsonLoads_encodeJson (v : Json) : jsonLoads (encodeJson v) = some v := by
  rw [jsonLoads]
  have h := rt_val v (2 * (encodeJson v).length + 1) []
    (le_trans (nfuel_le v) (by omega)) (numOk_nil v)
  rw [List.append_nil] at h
  rw [h]
  rfl

/-- `json.loads` fails on every strict prefix of a dumped non-number value. -/
theorem jsonLoads_pfx (v : Json) (hnum : isNum v = false) (p s2 : List Char)
    (he : encodeJson v = p ++ s2) (hne : s2 ≠ []) : jsonLoads p = none := by
  rw [jsonLoads]
  rcases pfx_val v p s2 (2 * p.length + 1) he hne with h | ⟨h, -⟩
  · rw [h]
  · rw [hnum] at h
    exact absurd h (by decide)

/-- `json.loads` fails on a dumped non-number value followed by leftover
non-whitespace data (Python raises the Extra data `JSONDecodeError`). -/
theorem jsonLoads_extra (v : Json) (hnum : isNum v = false) (extra : List Char)
    (hex : skipWs extra ≠ []) : jsonLoads (encodeJson v ++ extra) = none := by
  rw [jsonLoads]
  cases hout : parseVal (2 * (encodeJson v ++ extra).length + 1) (encodeJson v ++ extra) with
  | none => rfl
  | some r =>
    have hr := det_val v _ extra (numOk_not_num v hnum extra) hout
    subst hr
    simp only []
    rw [if_neg hex]


/-! ### Python value formatting

`str()`/`repr()` of values decoded from JSON, as used by the server's
f-string interpolations (`f"Unknown command type: {cmd_type}"` and the
error texts).  String escaping inside `repr` of nested strings is not
modelled; no theorem depends on it. -/

mutual
def pyRepr : Json → List Char
  | .null => strL "None"
  | .bool true => strL "True"
  | .bool false => strL "False"
  | .num m => encodeInt m
  | .str s => squote :: (s ++ [squote])
  | .arr xs => '[' :: (pyReprElems xs ++ [']'])
  | .obj ms => lbrace :: (pyReprMembers ms ++ [rbrace])

def pyReprElems : JsonList → List Char
  | .nil => []
  | .cons v .nil => pyRepr v
  | .cons v t => pyRepr v ++ ',' :: ' ' :: pyReprElems t

def pyReprMembers : JsonMembers → List Char
  | .nil => []
  | .cons k v .nil => squote :: (k ++ [squote]) ++ ':' :: ' ' :: pyRepr v
  | .cons k v t => squote :: (k ++ [squote]) ++ ':' :: ' ' :: pyRepr v ++ ',' :: ' ' :: pyReprMembers t
end

/-- Python `str()` of a decoded JSON value (containers fall back to `repr`). -/
def pyStr : Json → List Char
  | .str s => s
  | v => pyRepr v

/-- The Python type name of a decoded JSON value. -/
def pyTypeName : Json → List Char
  | .null => strL "NoneType"
  | .bool _ => strL "bool"
  | .num _ => strL "int"
  | .str _ => strL "str"
  | .arr _ => strL "list"
  | .obj _ => strL "dict"

/-- Python truthiness of a decoded JSON value. -/
def pyTruthy : Json → Bool
  | .null => false
  | .bool b => b
  | .num m => m != 0
  | .str s => !s.isEmpty
  | .arr .nil => false
  | .arr _ => true
  | .obj .nil => false
  | .obj _ => true

/-- `str()` of the `AttributeError` raised by `x.get(...)` on a non-dict. -/
def attrGetMsg (t : Json) : List Char :=
  squote :: (pyTypeName t ++ [squote]) ++ strL " object has no attribute " ++
    squote :: (strL "get" ++ [squote])

/-- `str()` of the `TypeError` raised by `handlers.get(cmd_type)` when
`cmd_type` is an unhashable decoded value (a list or a dict). -/
def unhashableMsg (tn : List Char) : List Char :=
  strL "unhashable type: " ++ squote :: (tn ++ [squote])

/-- Python `dict.get(k)` on object members (absent key gives `None`,
which coincides with decoded JSON `null`). -/
def mget (ms : JsonMembers) (k : List Char) : Json := (mlookup ms k).getD .null

/-- Python `dict.get(k, d)` on object members. -/
def mgetD (ms : JsonMembers) (k : List Char) (d : Json) : Json := (mlookup ms k).getD d

/-! ### Host state

The QGIS project/canvas state the handlers read and mutate, modelled as
plain data: `QgsProject.instance()` state plus the optional map canvas.
Numeric coordinates are modelled as integers, consistent with the integer
number model of the JSON layer. -/

structure Extent where
  xMin : Int
  yMin : Int
  xMax : Int
  yMax : Int
deriving DecidableEq

inductive LayerKind where
  | vector (geometryType : List Char) (featureCount : Int)
  | raster (width height bandCount : Int)
deriving DecidableEq

structure Layer where
  name : List Char
  kind : LayerKind
  crs : List Char
  visible : Bool
  extent : Extent
deriving DecidableEq

structure Host where
  fileName : List Char
  title : List Char
  crs : List Char
  mapLayersList : List (List Char × Layer)
  layerTree : List (List Char × Bool)
  canvasExtent : Option Extent
deriving DecidableEq

/-- Lookup in an id-keyed association list (`QgsProject.mapLayer`,
`layerTreeRoot().findLayer`; ids are unique). -/
def alookup {α : Type} : List (List Char × α) → List Char → Option α
  | [], _ => none
  | (k, v) :: t, key => if k = key then some v else alookup t key

/-- In-place update of an id-keyed association list. -/
def aset {α : Type} : List (List Char × α) → List Char → α → List (List Char × α)
  | [], _, _ => []
  | (k, v) :: t, key, w => if k = key then (k, w) :: t else (k, v) :: aset t key w

/-- Removal from an id-keyed association list (`removeMapLayer`). -/
def aremove {α : Type} : List (List Char × α) → List Char → List (List Char × α)
  | [], _ => []
  | (k, v) :: t, key => if k = key then t else (k, v) :: aremove t key

/-- The opaque QGIS capabilities the handlers call into: layer factories
(`QgsVectorLayer`/`QgsRasterLayer` construction and validity), `exec` of a
code string (which may mutate any host state before failing), and
`processing.run`. -/
structure Oracle where
  makeVectorLayer : Json → Json → Json → Option (List Char × Layer)
  makeRasterLayer : Json → Json → Json → Option (List Char × Layer)
  runCode : Json → Host → Option (List Char) × Host
  runAlgorithm : Json → Json → Host → Except (List Char) Json × Host

/-! ### Responses and handlers (server.py) -/

/-- `{"status": "success", "result": result}` in source key order. -/
def successResp (r : Json) : Json :=
  .obj (.cons (strL "status") (.str (strL "success")) (.cons (strL "result") r .nil))

/-- `{"status": "error", "message": message}` in source key order. -/
def errResp (m : List Char) : Json :=
  .obj (.cons (strL "status") (.str (strL "error")) (.cons (strL "message") (.str m) .nil))

def layerTypeName : LayerKind → List Char
  | .vector _ _ => strL "VectorLayer"
  | .raster _ _ _ => strL "RasterLayer"

def vectorFeatureCount : LayerKind → Int
  | .vector _ fc => fc
  | .raster _ _ _ => 0

def rasterWidth : LayerKind → Int
  | .vector _ _ => 0
  | .raster w _ _ => w

def rasterHeight : LayerKind → Int
  | .vector _ _ => 0
  | .raster _ h _ => h

def rasterBandCount : LayerKind → Int
  | .vector _ _ => 0
  | .raster _ _ b => b

def get_project_info (host : Host) : Except (List Char) Json × Host :=
  let base := [(strL "fileName", Json.str host.fileName), (strL "title", Json.str host.title),
    (strL "crs", Json.str host.crs),
    (strL "layerCount", Json.num (host.mapLayersList.length : Int))]
  match host.canvasExtent with
  | some e =>
    (.ok (.obj (jmem (base ++ [(strL "extent", .obj (jmem
      [(strL "xMin", .num e.xMin), (strL "yMin", .num e.yMin),
       (strL "xMax", .num e.xMax), (strL "yMax", .num e.yMax)]))]))), host)
  | none => (.ok (.obj (jmem base)), host)

def layerInfo (id : List Char) (layer : Layer) : Json :=
  let base := [(strL "id", Json.str id), (strL "name", Json.str layer.name),
    (strL "type", Json.str (layerTypeName layer.kind)), (strL "crs", Json.str layer.crs),
    (strL "visible", Json.bool layer.visible)]
  match layer.kind with
  | .vector g fc =>
    .obj (jmem (base ++ [(strL "geometry_type", .str g), (strL "feature_count", .num fc)]))
  | .raster w h b =>
    .obj (jmem (base ++ [(strL "width", .num w), (strL "height", .num h),
      (strL "band_count", .num b)]))

def get_layers (host : Host) : Except (List Char) Json × Host :=
  (.ok (.obj (.cons (strL "layers")
    (.arr (jarr (host.mapLayersList.map (fun p => layerInfo p.1 p.2)))) .nil)), host)

def add_vector_layer (orc : Oracle) (host : Host) (path nm provider : Json) :
    Except (List Char) Json × Host :=
  match orc.makeVectorLayer path nm provider with
  | none => (.error (strL "Layer failed to load: " ++ pyStr path), host)
  | some (id, layer) =>
    (.ok (.obj (jmem [(strL "id", .str id), (strL "name", .str layer.name),
       (strL "feature_count", .num (vectorFeatureCount layer.kind))])),
     { host with mapLayersList := host.mapLayersList ++ [(id, layer)],
                 layerTree := host.layerTree ++ [(id, true)] })

def add_raster_layer (orc : Oracle) (host : Host) (path nm provider : Json) :
    Except (List Char) Json × Host :=
  match orc.makeRasterLayer path nm provider with
  | none => (.error (strL "Layer failed to load: " ++ pyStr path), host)
  | some (id, layer) =>
    (.ok (.obj (jmem [(strL "id", .str id), (strL "name", .str layer.name),
       (strL "width", .num (rasterWidth layer.kind)),
       (strL "height", .num (rasterHeight layer.kind))])),
     { host with mapLayersList := host.mapLayersList ++ [(id, layer)],
                 layerTree := host.layerTree ++ [(id, true)] })

def zoom_to_layer (host : Host) (layer_id : Json) : Except (List Char) Json × Host :=
  match layer_id with
  | .str s =>
    match alookup host.mapLayersList s with
    | none => (.error (strL "Layer not found: " ++ s), host)
    | some layer =>
      (.ok (.obj (.cons (strL "zoomed_to") (.str layer.name) .nil)),
       match host.canvasExtent with
       | some _ => { host with canvasExtent := some layer.extent }
       | none => host)
  | t => (.error (strL "Layer not found: " ++ pyStr t), host)

def set_visibility (host : Host) (layer_id visible : Json) : Except (List Char) Json × Host :=
  match layer_id with
  | .str s =>
    match alookup host.mapLayersList s with
    | none => (.error (strL "Layer not found: " ++ s), host)
    | some layer =>
      (.ok (.obj (jmem [(strL "layer", .str layer.name), (strL "visible", visible)])),
       { host with layerTree := aset host.layerTree s (pyTruthy visible) })
  | t => (.error (strL "Layer not found: " ++ pyStr t), host)

def remove_layer (host : Host) (layer_id : Json) : Except (List Char) Json × Host :=
  match layer_id with
  | .str s =>
    match alookup host.mapLayersList s with
    | none => (.error (strL "Layer not found: " ++ s), host)
    | some layer =>
      (.ok (.obj (.cons (strL "removed") (.str layer.name) .nil)),
       { host with mapLayersList := aremove host.mapLayersList s,
                   layerTree := aremove host.layerTree s })
  | t => (.error (strL "Layer not found: " ++ pyStr t), host)

def execute_code (orc : Oracle) (host : Host) (code : Json) : Except (List Char) Json × Host :=
  match orc.runCode code host with
  | (some e, host2) => (.error (strL "Code execution error: " ++ e), host2)
  | (none, host2) => (.ok (.obj (.cons (strL "executed") (.bool true) .nil)), host2)

def run_processing_algorithm (orc : Oracle) (host : Host) (algorithm parameters : Json) :
    Except (List Char) Json × Host :=
  match orc.runAlgorithm algorithm parameters host with
  | (.error e, host2) => (.error (strL "Error running algorithm: " ++ e), host2)
  | (.ok r, host2) =>
    (.ok (.obj (jmem [(strL "algorithm", algorithm), (strL "result", r)])), host2)

/-! ### Keyword-argument binding for `handler(**params)` -/

def mkeys : JsonMembers → List (List Char)
  | .nil => []
  | .cons k _ t => k :: mkeys t

/-- `str()` of the `TypeError` for a missing required argument (when several
are missing Python lists them all; the model reports the first). -/
def missingArgMsg (f a : List Char) : List Char :=
  f ++ strL "() missing 1 required positional argument: " ++ squote :: (a ++ [squote])

/-- `str()` of the `TypeError` for an unexpected keyword argument. -/
def unexpectedKwargMsg (f k : List Char) : List Char :=
  f ++ strL "() got an unexpected keyword argument " ++ squote :: (k ++ [squote])

/-- `str()` of the `TypeError` raised by `handler(**params)` when the decoded
`params` value is not a dict (Python prefixes the callable's qualified name;
the model keeps the plain method name). -/
def mappingMsg (f : List Char) (t : Json) : List Char :=
  f ++ strL "() argument after ** must be a mapping, not " ++ pyTypeName t

def firstNotIn : List (List Char) → List (List Char) → Option (List Char)
  | [], _ => none
  | k :: t, allowed => if k ∈ allowed then firstNotIn t allowed else some k

/-- Keyword binding against required and optional parameter names; `some`
is the `TypeError` text when the call cannot be bound. -/
def bindCheck (f : List Char) (pms : JsonMembers) (req opt : List (List Char)) :
    Option (List Char) :=
  match firstNotIn (mkeys pms) (req ++ opt) with
  | some k => some (unexpectedKwargMsg f k)
  | none =>
    match firstNotIn req (mkeys pms) with
    | some a => some (missingArgMsg f a)
    | none => none

/-- `handler(**params)` for each registered handler: bind the decoded params
as keyword arguments (with the source's defaults) and run the handler body.
Any failure is an `Except.error` carrying `str()` of the raised exception. -/
def invokeHandler (orc : Oracle) (host : Host) (name : List Char) (params : Json) :
    Except (List Char) Json × Host :=
  match params with
  | .obj pms =>
    if name = strL "get_project_info" then
      match bindCheck name pms [] [] with
      | some e => (.error e, host)
      | none => get_project_info host
    else if name = strL "get_layers" then
      match bindCheck name pms [] [] with
      | some e => (.error e, host)
      | none => get_layers host
    else if name = strL "add_vector_layer" then
      match bindCheck name pms [strL "path", strL "name"] [strL "provider"] with
      | some e => (.error e, host)
      | none => add_vector_layer orc host (mget pms (strL "path")) (mget pms (strL "name"))
          (mgetD pms (strL "provider") (.str (strL "ogr")))
    else if name = strL "add_raster_layer" then
      match bindCheck name pms [strL "path", strL "name"] [strL "provider"] with
      | some e => (.error e, host)
      | none => add_raster_layer orc host (mget pms (strL "path")) (mget pms (strL "name"))
          (mgetD pms (strL "provider") (.str (strL "gdal")))
    else if name = strL "zoom_to_layer" then
      match bindCheck name pms [strL "layer_id"] [] with
      | some e => (.error e, host)
      | none => zoom_to_layer host (mget pms (strL "layer_id"))
    else if name = strL "set_visibility" then
      match bindCheck name pms [strL "layer_id", strL "visible"] [] with
      | some e => (.error e, host)
      | none => set_visibility host (mget pms (strL "layer_id")) (mget pms (strL "visible"))
    else if name = strL "remove_layer" then
      match bindCheck name pms [strL "layer_id"] [] with
      | some e => (.error e, host)
      | none => remove_layer host (mget pms (strL "layer_id"))
    else if name = strL "execute_code" then
      match bindCheck name pms [strL "code"] [] with
      | some e => (.error e, host)
      | none => execute_code orc host (mget pms (strL "code"))
    else if name = strL "run_processing_algorithm" then
      match bindCheck name pms [strL "algorithm", strL "parameters"] [] with
      | some e => (.error e, host)
      | none => run_processing_algorithm orc host (mget pms (strL "algorithm"))
          (mget pms (strL "parameters"))
    else (.error (strL "Unknown command type: " ++ name), host)
  | t => (.error (mappingMsg name t), host)

/-- The registry's command names, in source order. -/
def handlerNames : List (List Char) :=
  [strL "get_project_info", strL "get_layers", strL "add_vector_layer",
   strL "add_raster_layer", strL "zoom_to_layer", strL "set_visibility",
   strL "remove_layer", strL "execute_code", strL "run_processing_algorithm"]

/-- `QGISMCPServer.execute_command`: extract `type` and `params`, look the
type up in the handler registry, invoke, and wrap the outcome; every raised
exception is caught and becomes an error response. -/
def execute_command (orc : Oracle) (host : Host) (command : Json) : Json × Host :=
  match command with
  | .obj ms =>
    let cmd_type := mget ms (strL "type")
    let params := mgetD ms (strL "params") (.obj .nil)
    match cmd_type with
    | .arr _ => (errResp (unhashableMsg (strL "list")), host)
    | .obj _ => (errResp (unhashableMsg (strL "dict")), host)
    | .str name =>
      if name ∈ handlerNames then
        match invokeHandler orc host name params with
        | (.ok r, host2) => (successResp r, host2)
        | (.error e, host2) => (errResp e, host2)
      else (errResp (strL "Unknown command type: " ++ name), host)
    | t => (errResp (strL "Unknown command type: " ++ pyStr t), host)
  | t => (errResp (attrGetMsg t), host)

/-! ### The server's receive loop (`_handle_client` / `_run_server`) -/

def joinChunks : List (List Char) → List Char
  | [] => []
  | c :: t => c ++ joinChunks t

/-- The framing part of `_handle_client`: per received chunk, append to the
buffer and try `json.loads` on the whole buffer; on success clear the buffer
and emit the command, on failure keep buffering.  Returns the commands
decoded on this connection and the buffer contents when the peer closes. -/
def recvParse : List Char → List (List Char) → List Json × List Char
  | buf, [] => ([], buf)
  | buf, c :: cs =>
    match jsonLoads (buf ++ c) with
    | some cmd =>
      let r := recvParse [] cs
      (cmd :: r.1, r.2)
    | none => recvParse (buf ++ c) cs

/-- The accept loop's effect on the buffer: `self.buffer` is an attribute of
the server object, set once in `__init__`, so consecutive accepted
connections share it — each connection starts from the previous
connection's leftover bytes. -/
def serveConns : List Char → List (List (List Char)) → List (List Json) × List Char
  | buf, [] => ([], buf)
  | buf, conn :: conns =>
    let r := recvParse buf conn
    let s := serveConns r.2 conns
    (r.1 :: s.1, s.2)

/-! ### The client connection manager (connection.py) -/

structure QGISConnection where
  host : List Char
  port : Int
  sock : Option Unit
deriving DecidableEq

/-- The transport environment for one `send_command` call: whether a fresh
connect would succeed, whether `sendall` raises (and what), and the
scripted results of successive `recv` calls (an empty chunk is the peer
closing the stream). -/
structure Net where
  connectOk : Bool
  sendErr : Option Json
  recvs : List (List Char)

/-- `QGISConnection.connect`: no-op when a socket exists; otherwise open a
socket, clearing the reference and returning `false` on failure. -/
def connect (net : Net) (c : QGISConnection) : Bool × QGISConnection :=
  match c.sock with
  | some _ => (true, c)
  | none =>
    if net.connectOk then (true, { c with sock := some () })
    else (false, { c with sock := none })

/-- `QGISConnection.disconnect`: close if open (close errors are swallowed);
the `finally` clears the socket reference unconditionally. -/
def disconnect (c : QGISConnection) : QGISConnection :=
  match c.sock with
  | some _ => { c with sock := none }
  | none => c

/-- One `send_command` call's outcome: a returned value, a raised
exception, or blocking forever on `recv`. -/
inductive Outcome where
  | ret (v : Json)
  | exn (e : Json)
  | hang

/-- Lines 68–71 of connection.py: inspect `status`, raise the `message`
(with its default) on `"error"`, otherwise return `result` (defaulting to
an empty dict). -/
def unwrapResp (ms : JsonMembers) : Except Json Json :=
  match mget ms (strL "status") with
  | .str s =>
    if s = strL "error" then
      .error (mgetD ms (strL "message") (.str (strL "Unknown error from QGIS")))
    else .ok (mgetD ms (strL "result") (.obj .nil))
  | _ => .ok (mgetD ms (strL "result") (.obj .nil))

/-- The client's receive loop: accumulate chunks, retry `json.loads` after
each, break-and-raise on a zero-length read, unwrap on a complete document
(`response.get` on a non-dict document raises `AttributeError`). -/
def recvLoop : List (List Char) → List Char → Outcome
  | [], _ => .hang
  | chunk :: rest, acc =>
    if chunk = [] then .exn (.str (strL "Unexpected end of data stream from QGIS"))
    else
      match jsonLoads (acc ++ chunk) with
      | some (.obj ms) =>
        match unwrapResp ms with
        | .ok r => .ret r
        | .error m => .exn m
      | some t => .exn (.str (attrGetMsg t))
      | none => recvLoop rest (acc ++ chunk)

/-- `QGISConnection.send_command`: ensure connected (auto-connect), build
and send the command document, then run the receive loop; any failure in
the send/receive phase clears the socket reference before propagating. -/
def send_command (net : Net) (c : QGISConnection) (command_type : List Char)
    (params : Option Json) : Outcome × QGISConnection :=
  let conn := match c.sock with
    | some _ => (true, c)
    | none => connect net c
  if conn.1 = false then (.exn (.str (strL "Not connected to QGIS")), conn.2)
  else
    let pv := match params with
      | some p => if pyTruthy p then p else .obj .nil
      | none => .obj .nil
    let command := Json.obj (.cons (strL "type") (.str command_type)
      (.cons (strL "params") pv .nil))
    let _wire := encodeJson command
    match net.sendErr with
    | some e => (.exn e, { conn.2 with sock := none })
    | none =>
      match recvLoop net.recvs [] with
      | .ret r => (.ret r, conn.2)
      | .exn e => (.exn e, { conn.2 with sock := none })
      | .hang => (.hang, conn.2)


/-! ### Concrete instances for closed evaluations -/

/-- A host with no layers, no canvas, empty project metadata. -/
def host0 : Host := ⟨[], [], [], [], [], none⟩

/-- A QGIS capability oracle on which every factory fails and both
interpreters are inert. -/
def orc0 : Oracle :=
  ⟨fun _ _ _ => none, fun _ _ _ => none, fun _ h => (none, h), fun _ _ h => (.error [], h)⟩

/-- `{"type": t, "params": p}` as a decoded command document. -/
def cmdDoc (t p : Json) : Json :=
  .obj (.cons (strL "type") t (.cons (strL "params") p .nil))

/-! ### Claim theorems -/

/-- C8: `disconnect()` never raises (the model is a total function: close
errors are swallowed and the `finally` clears the reference), always leaves
the socket reference cleared, and is idempotent: the post-state after one
call equals the post-state after two. -/
theorem C8_disconnect_idempotent (c : QGISConnection) :
    (disconnect c).sock = none ∧ disconnect (disconnect c) = disconnect c := by
  cases hc : c.sock <;> simp [disconnect, hc]

/-- C7: whenever `send_command` propagates an exception, the connection
manager has cleared its socket reference first, so the next call attempts a
fresh connection. -/
theorem C7_sock_cleared_on_failure (net : Net) (c : QGISConnection)
    (ct : List Char) (params : Option Json) (e : Json) (c2 : QGISConnection)
    (h : send_command net c ct params = (.exn e, c2)) : c2.sock = none := by
  have leaf : ∀ x : QGISConnection, x.sock = none → x = c2 → c2.sock = none := by
    intro x hx he
    subst he
    exact hx
  cases hs : c.sock with
  | none =>
    cases hok : net.connectOk with
    | false =>
      simp +decide only [send_command, connect, hs, hok, reduceIte, Prod.mk.injEq] at h
      exact leaf _ rfl h.2
    | true =>
      cases hse : net.sendErr with
      | some e2 =>
        simp +decide only [send_command, connect, hs, hok, hse, reduceIte, Prod.mk.injEq] at h
        exact leaf _ rfl h.2
      | none =>
        cases hr : recvLoop net.recvs [] with
        | ret v => simp +decide [send_command, connect, hs, hok, hse, hr] at h
        | exn e3 =>
          simp +decide only [send_command, connect, hs, hok, hse, hr, reduceIte,
            Prod.mk.injEq] at h
          exact leaf _ rfl h.2
        | hang => simp +decide [send_command, connect, hs, hok, hse, hr] at h
  | some u =>
    cases hse : net.sendErr with
    | some e2 =>
      simp +decide only [send_command, connect, hs, hse, reduceIte, Prod.mk.injEq] at h
      exact leaf _ rfl h.2
    | none =>
      cases hr : recvLoop net.recvs [] with
      | ret v => simp +decide [send_command, connect, hs, hse, hr] at h
      | exn e3 =>
        simp +decide only [send_command, connect, hs, hse, hr, reduceIte,
          Prod.mk.injEq] at h
        exact leaf _ rfl h.2
      | hang => simp +decide [send_command, connect, hs, hse, hr] at h

theorem C7_sock_cleared_on_failure_witness :
    (send_command ⟨true, none, [[]]⟩ ⟨strL "localhost", 9877, some ()⟩
      (strL "get_layers") none).2.sock = none :=
  C7_sock_cleared_on_failure ⟨true, none, [[]]⟩ ⟨strL "localhost", 9877, some ()⟩
    (strL "get_layers") none
    (.str (strL "Unexpected end of data stream from QGIS")) _ rfl

/-- C9: a `zoom_to_layer` command naming a layer id absent from the host's
layer mapping yields exactly the error response
`{"status": "error", "message": "Layer not found: <s>"}`. -/
theorem C9_zoom_to_layer_missing (orc : Oracle) (host : Host) (s : List Char)
    (h : alookup host.mapLayersList s = none) :
    execute_command orc host
        (cmdDoc (.str (strL "zoom_to_layer")) (.obj (.cons (strL "layer_id") (.str s) .nil))) =
      (errResp (strL "Layer not found: " ++ s), host) := by
  simp +decide [execute_command, cmdDoc, invokeHandler, zoom_to_layer, mget, mgetD,
    mlookup, bindCheck, mkeys, firstNotIn, handlerNames, h]

theorem C9_zoom_to_layer_missing_witness :
    execute_command orc0 host0
        (cmdDoc (.str (strL "zoom_to_layer"))
          (.obj (.cons (strL "layer_id") (.str (strL "missing-id")) .nil))) =
      (errResp (strL "Layer not found: " ++ strL "missing-id"), host0) :=
  C9_zoom_to_layer_missing orc0 host0 (strL "missing-id") rfl

/-- C10: with a layer id absent from the host's layer mapping, each of
`zoom_to_layer`, `set_visibility` and `remove_layer` raises its
"Layer not found" error before any mutation, leaving the host state (layer
mapping, layer tree and canvas extent) exactly unchanged. -/
theorem C10_missing_layer_no_mutation (host : Host) (s : List Char) (visible : Json)
    (h : alookup host.mapLayersList s = none) :
    zoom_to_layer host (.str s) = (.error (strL "Layer not found: " ++ s), host) ∧
    set_visibility host (.str s) visible = (.error (strL "Layer not found: " ++ s), host) ∧
    remove_layer host (.str s) = (.error (strL "Layer not found: " ++ s), host) := by
  refine ⟨?_, ?_, ?_⟩ <;> simp +decide [zoom_to_layer, set_visibility, remove_layer, h]

theorem C10_missing_layer_no_mutation_witness :
    zoom_to_layer host0 (.str (strL "x")) =
      (.error (strL "Layer not found: " ++ strL "x"), host0) ∧
    set_visibility host0 (.str (strL "x")) (.bool true) =
      (.error (strL "Layer not found: " ++ strL "x"), host0) ∧
    remove_layer host0 (.str (strL "x")) =
      (.error (strL "Layer not found: " ++ strL "x"), host0) :=
  C10_missing_layer_no_mutation host0 (strL "x") (.bool true) rfl

/-- C4: when a registered handler's invocation fails (including keyword
binding failures for the decoded params), `execute_command` catches the
failure and returns `{"status": "error", "message": str(e)}` together with
whatever host state the failing invocation left; it never raises (the model
is a total function). -/
theorem C4_handler_failure_wrapped (orc : Oracle) (host : Host) (name : List Char)
    (params : Json) (e : List Char)
    (hmem : name ∈ handlerNames)
    (herr : (invokeHandler orc host name params).1 = .error e) :
    execute_command orc host (cmdDoc (.str name) params) =
      (errResp e, (invokeHandler orc host name params).2) := by
  simp +decide only [execute_command, cmdDoc, mget, mgetD, mlookup, reduceIte,
    Option.getD_some]
  rw [if_pos hmem]
  cases hinv : invokeHandler orc host name params with
  | mk r h2 =>
    rw [hinv] at herr
    simp only [] at herr
    subst herr
    rfl

theorem C4_handler_failure_wrapped_witness :
    execute_command orc0 host0
        (cmdDoc (.str (strL "zoom_to_layer"))
          (.obj (.cons (strL "layer_id") (.str (strL "x")) .nil))) =
      (errResp (strL "Layer not found: x"),
       (invokeHandler orc0 host0 (strL "zoom_to_layer")
         (.obj (.cons (strL "layer_id") (.str (strL "x")) .nil))).2) :=
  C4_handler_failure_wrapped orc0 host0 (strL "zoom_to_layer")
    (.obj (.cons (strL "layer_id") (.str (strL "x")) .nil))
    (strL "Layer not found: x") (by decide) rfl

/-- C3 (amended): a command whose `type` is a string outside the registry, or
any other hashable scalar, gets the response
`{"status": "error", "message": "Unknown command type: <t>"}` with `t`
interpolated by Python `str()`; but a `type` decoded as a list or a dict is
unhashable, so `handlers.get(cmd_type)` raises `TypeError` and the response
message is `"unhashable type: 'list'"` (resp. `'dict'`) instead of the
claimed text.  In every case an error response is returned and the
dispatcher does not raise. -/
theorem C3_unknown_type_response (orc : Oracle) (host : Host) (p : Json) :
    (∀ s : List Char, s ∉ handlerNames →
      execute_command orc host (cmdDoc (.str s) p) =
        (errResp (strL "Unknown command type: " ++ s), host)) ∧
    (execute_command orc host (cmdDoc .null p) =
        (errResp (strL "Unknown command type: " ++ pyStr .null), host)) ∧
    (∀ b : Bool, execute_command orc host (cmdDoc (.bool b) p) =
        (errResp (strL "Unknown command type: " ++ pyStr (.bool b)), host)) ∧
    (∀ m : Int, execute_command orc host (cmdDoc (.num m) p) =
        (errResp (strL "Unknown command type: " ++ pyStr (.num m)), host)) ∧
    (∀ xs : JsonList, execute_command orc host (cmdDoc (.arr xs) p) =
        (errResp (unhashableMsg (strL "list")), host)) ∧
    (∀ ms : JsonMembers, execute_command orc host (cmdDoc (.obj ms) p) =
        (errResp (unhashableMsg (strL "dict")), host)) := by
  refine ⟨?_, ?_, ?_, ?_, ?_, ?_⟩
  · intro s hs
    simp +decide only [execute_command, cmdDoc, mget, mgetD, mlookup, reduceIte,
      Option.getD_some]
    rw [if_neg hs]
  · simp +decide [execute_command, cmdDoc, mget, mgetD, mlookup, pyStr]
  · intro b
    cases b <;> simp +decide [execute_command, cmdDoc, mget, mgetD, mlookup, pyStr, pyRepr]
  · intro m
    simp +decide [execute_command, cmdDoc, mget, mgetD, mlookup, pyStr, pyRepr]
  · intro xs
    simp +decide [execute_command, cmdDoc, mget, mgetD, mlookup]
  · intro ms
    simp +decide [execute_command, cmdDoc, mget, mgetD, mlookup]

theorem C3_unknown_type_response_witness :
    execute_command orc0 host0 (cmdDoc (.str (strL "nope")) (.obj .nil)) =
      (errResp (strL "Unknown command type: " ++ strL "nope"), host0) :=
  (C3_unknown_type_response orc0 host0 (.obj .nil)).1 (strL "nope") (by decide)

/-- C3's claimed text is wrong for unhashable `type` values: with
`type = []` the dispatcher answers with the `TypeError` text
`"unhashable type: 'list'"`, not `"Unknown command type: []"`. -/
theorem C3_counterexample :
    execute_command orc0 host0 (cmdDoc (.arr .nil) (.obj .nil)) =
      (errResp (unhashableMsg (strL "list")), host0) ∧
    unhashableMsg (strL "list") ≠ strL "Unknown command type: []" := by
  exact ⟨rfl, by decide⟩


/-! ### Remaining claims: framing and the client's receive phase -/

theorem encodeJson_ne_nil (v : Json) : encodeJson v ≠ [] := by
  obtain ⟨c, t2, hE, -⟩ := encodeJson_head v
  rw [hE]
  simp

/-- With a live socket and a successful send, `send_command` reduces to the
receive loop's outcome, clearing the socket on an exception. -/
theorem sendCommand_recv (net : Net) (c : QGISConnection) (ct : List Char)
    (params : Option Json) (hsock : c.sock = some ()) (hsend : net.sendErr = none) :
    send_command net c ct params =
      match recvLoop net.recvs [] with
      | .ret r => (.ret r, c)
      | .exn e => (.exn e, { c with sock := none })
      | .hang => (.hang, c) := by
  simp +decide only [send_command, hsock, hsend, reduceIte]

/-- A single complete response document drives the receive loop straight to
the unwrap step. -/
theorem recvLoop_single (ms : JsonMembers) :
    recvLoop [encodeJson (.obj ms)] [] =
      match unwrapResp ms with
      | .ok r => .ret r
      | .error m => .exn m := by
  simp only [recvLoop]
  rw [if_neg (encodeJson_ne_nil _), List.nil_append, jsonLoads_encodeJson]

/-- C5: once `send_command` parses a complete response document, a `status`
of `"error"` raises the response's `message` (defaulting to
"Unknown error from QGIS" when absent), and any other `status` returns the
response's `result`, defaulting to the empty mapping when absent. -/
theorem C5_response_unwrapping (net : Net) (c : QGISConnection) (ct : List Char)
    (params : Option Json) (ms : JsonMembers)
    (hsock : c.sock = some ()) (hsend : net.sendErr = none)
    (hrecv : net.recvs = [encodeJson (.obj ms)]) :
    (mget ms (strL "status") = .str (strL "error") →
      send_command net c ct params =
        (.exn (mgetD ms (strL "message") (.str (strL "Unknown error from QGIS"))),
         { c with sock := none })) ∧
    (mget ms (strL "status") ≠ .str (strL "error") →
      send_command net c ct params =
        (.ret (mgetD ms (strL "result") (.obj .nil)), c)) := by
  have hsc := sendCommand_recv net c ct params hsock hsend
  rw [hrecv, recvLoop_single] at hsc
  constructor
  · intro hst
    have hw : unwrapResp ms =
        .error (mgetD ms (strL "message") (.str (strL "Unknown error from QGIS"))) := by
      rw [unwrapResp, hst]
      simp only []
      rw [if_pos trivial]
    rw [hw] at hsc
    exact hsc
  · intro hst
    have hw : unwrapResp ms = .ok (mgetD ms (strL "result") (.obj .nil)) := by
      rw [unwrapResp]
      cases hsv : mget ms (strL "status") with
      | str s =>
        have hne2 : s ≠ strL "error" := by
          intro hh
          exact hst (by rw [hsv, hh])
        simp only []
        rw [if_neg hne2]
      | null => rfl
      | bool b => rfl
      | num m => rfl
      | arr xs => rfl
      | obj ms2 => rfl
    rw [hw] at hsc
    exact hsc

def ms0err : JsonMembers := .cons (strL "status") (.str (strL "error")) .nil

theorem C5_response_unwrapping_witness :
    send_command ⟨true, none, [encodeJson (.obj ms0err)]⟩
        ⟨strL "localhost", 9877, some ()⟩ (strL "get_layers") none =
      (.exn (mgetD ms0err (strL "message") (.str (strL "Unknown error from QGIS"))),
       { (⟨strL "localhost", 9877, some ()⟩ : QGISConnection) with sock := none }) :=
  (C5_response_unwrapping ⟨true, none, [encodeJson (.obj ms0err)]⟩
    ⟨strL "localhost", 9877, some ()⟩ (strL "get_layers") none ms0err rfl rfl rfl).1 rfl

/-- The receive loop hits the zero-length read and raises end-of-stream when
every accumulated prefix before it fails to parse. -/
theorem recvLoop_eos : ∀ (pre rest : List (List Char)) (acc : List Char),
    (∀ ch ∈ pre, ch ≠ []) →
    (∀ k, 0 < k → jsonLoads (acc ++ joinChunks (pre.take k)) = none) →
    recvLoop (pre ++ [] :: rest) acc =
      .exn (.str (strL "Unexpected end of data stream from QGIS"))
  | [], rest, acc, _, _ => by
    rw [List.nil_append]
    simp only [recvLoop]
    rw [if_pos trivial]
  | ch :: pre2, rest, acc, hne, hparse => by
    rw [List.cons_append]
    simp only [recvLoop]
    rw [if_neg (hne ch (by simp))]
    have h1 : jsonLoads (acc ++ ch) = none := by
      have h2 := hparse 1 (by omega)
      simpa [joinChunks] using h2
    rw [h1]
    exact recvLoop_eos pre2 rest (acc ++ ch)
      (fun x hx => hne x (by simp [hx]))
      (fun k hk => by
        have h2 := hparse (k + 1) (by omega)
        simpa [joinChunks, List.take_succ_cons, List.append_assoc] using h2)

/-- C6: if the peer closes the stream (zero-length read) before the
accumulated bytes parse as one complete document — including when the very
first read returns zero bytes — `send_command` raises the end-of-stream
protocol error instead of returning, and clears the socket. -/
theorem C6_eos_raises (net : Net) (c : QGISConnection) (ct : List Char)
    (params : Option Json) (pre rest : List (List Char))
    (hsock : c.sock = some ()) (hsend : net.sendErr = none)
    (hrecv : net.recvs = pre ++ [] :: rest)
    (hne : ∀ ch ∈ pre, ch ≠ [])
    (hparse : ∀ k, 0 < k → jsonLoads (joinChunks (pre.take k)) = none) :
    send_command net c ct params =
      (.exn (.str (strL "Unexpected end of data stream from QGIS")),
       { c with sock := none }) := by
  rw [sendCommand_recv net c ct params hsock hsend, hrecv,
    recvLoop_eos pre rest [] hne (fun k hk => by simpa using hparse k hk)]

theorem C6_eos_raises_witness :
    send_command ⟨true, none, [[]]⟩ ⟨strL "localhost", 9877, some ()⟩
        (strL "get_layers") none =
      (.exn (.str (strL "Unexpected end of data stream from QGIS")),
       { (⟨strL "localhost", 9877, some ()⟩ : QGISConnection) with sock := none }) ∧
    send_command ⟨true, none, [[lbrace], []]⟩ ⟨strL "localhost", 9877, some ()⟩
        (strL "get_layers") none =
      (.exn (.str (strL "Unexpected end of data stream from QGIS")),
       { (⟨strL "localhost", 9877, some ()⟩ : QGISConnection) with sock := none }) := by
  constructor
  · exact C6_eos_raises _ _ _ _ [] [] rfl rfl rfl (by simp)
      (fun k hk => by rw [List.take_nil]; rfl)
  · exact C6_eos_raises _ _ _ _ [[lbrace]] [] rfl rfl rfl (by decide)
      (fun k hk => by
        match k, hk with
        | k + 1, _ =>
          rw [List.take_succ_cons, List.take_nil]
          rfl)

theorem joinChunks_ne_nil (c : List Char) (cs : List (List Char)) (hc : c ≠ []) :
    joinChunks (c :: cs) ≠ [] := by
  simp only [joinChunks]
  intro h
  exact hc (List.append_eq_nil.mp h).1

/-- The receive-parse loop on the chunks of one encoded command: every
proper accumulation fails to parse, the final chunk completes the document,
and the decoded command is exactly the encoded one. -/
theorem recvParse_doc : ∀ (chunks : List (List Char)) (p : List Char) (ms : JsonMembers),
    (∀ ch ∈ chunks, ch ≠ []) → chunks ≠ [] →
    encodeJson (.obj ms) = p ++ joinChunks chunks →
    recvParse p chunks = ([.obj ms], [])
  | [], _, _, _, hnil, _ => absurd rfl hnil
  | [c], p, ms, _, _, hdoc => by
    simp only [recvParse]
    have hfull : p ++ c = encodeJson (.obj ms) := by
      rw [hdoc]
      simp [joinChunks]
    rw [hfull, jsonLoads_encodeJson]
  | c :: c2 :: cs, p, ms, hne, _, hdoc => by
    simp only [recvParse]
    have hpfx : jsonLoads (p ++ c) = none := by
      refine jsonLoads_pfx (.obj ms) rfl (p ++ c) (joinChunks (c2 :: cs)) ?_ ?_
      · rw [hdoc]
        simp [joinChunks, List.append_assoc]
      · exact joinChunks_ne_nil c2 cs (hne c2 (by simp))
    rw [hpfx]
    exact recvParse_doc (c2 :: cs) (p ++ c) ms
      (fun x hx => hne x (by simp at hx ⊢; tauto))
      (by simp)
      (by rw [hdoc]; simp [joinChunks, List.append_assoc])

/-- C1: splitting the encoding of any command object into non-empty chunks
and feeding them one at a time to the server's receive loop (append, try to
parse the whole buffer, keep reading on failure) reconstructs exactly the
command once the final chunk arrives, independent of the split points, and
leaves the buffer empty. -/
theorem C1_chunked_roundtrip (ms : JsonMembers) (chunks : List (List Char))
    (hne : ∀ ch ∈ chunks, ch ≠ [])
    (hjoin : joinChunks chunks = encodeJson (.obj ms)) :
    recvParse [] chunks = ([.obj ms], []) := by
  have hnn : chunks ≠ [] := by
    intro h
    subst h
    exact encodeJson_ne_nil (.obj ms) (by simpa [joinChunks] using hjoin.symm)
  exact recvParse_doc chunks [] ms hne hnn (by rw [← hjoin]; rfl)

def msPing : JsonMembers := .cons (strL "type") (.str (strL "ping")) .nil

theorem C1_chunked_roundtrip_witness :
    recvParse [] [lbrace :: strL "\"typ", strL "e\": \"ping\"" ++ [rbrace]] =
      ([.obj msPing], []) :=
  C1_chunked_roundtrip msPing [lbrace :: strL "\"typ", strL "e\": \"ping\"" ++ [rbrace]]
    (by decide) rfl

/-- C2 (observed behavior): the accumulation buffer is reset to empty
immediately after every successfully parsed message, and consecutive
accepted connections thread the server object's single buffer: each
connection starts from the previous connection's leftover bytes, which are
not discarded on accept. -/
theorem C2_buffer_lifecycle :
    (∀ (buf c : List Char) (cs : List (List Char)) (cmd : Json),
        jsonLoads (buf ++ c) = some cmd →
        recvParse buf (c :: cs) = (cmd :: (recvParse [] cs).1, (recvParse [] cs).2)) ∧
    (∀ (buf : List Char) (conn : List (List Char)) (conns : List (List (List Char))),
        serveConns buf (conn :: conns) =
          ((recvParse buf conn).1 :: (serveConns (recvParse buf conn).2 conns).1,
           (serveConns (recvParse buf conn).2 conns).2)) := by
  constructor
  · intro buf c cs cmd h
    simp [recvParse, h]
  · intro buf conn conns
    simp [serveConns]

theorem C2_buffer_lifecycle_witness :
    recvParse [] [encodeJson (cmdDoc (.str (strL "ping")) (.obj .nil))] =
      (cmdDoc (.str (strL "ping")) (.obj .nil) :: (recvParse [] ([] : List (List Char))).1,
       (recvParse [] ([] : List (List Char))).2) :=
  C2_buffer_lifecycle.1 [] (encodeJson (cmdDoc (.str (strL "ping")) (.obj .nil))) []
    (cmdDoc (.str (strL "ping")) (.obj .nil))
    (by rw [List.nil_append]; exact jsonLoads_encodeJson _)

/-- C2's claimed per-connection lifecycle fails on the code: bytes buffered
when one connection closes pollute the next one.  A first connection that
sends only an opening brace leaves it in `self.buffer`; a second connection
sending one complete command document then decodes nothing, while the same
document on a fresh buffer decodes to the command. -/
theorem C2_counterexample :
    (serveConns [] [[[lbrace]], [encodeJson (cmdDoc (.str (strL "ping")) (.obj .nil))]]).1 =
      [[], []] ∧
    (recvParse [] [encodeJson (cmdDoc (.str (strL "ping")) (.obj .nil))]).1 =
      [cmdDoc (.str (strL "ping")) (.obj .nil)] := by
  constructor
  · rfl
  · simp [recvParse, jsonLoads_encodeJson]

end QgisMcp
